import Mathlib

/-!
A shallow embedding of the crossword CSP solver of
`src/3.Optimization/crossword/generate.py` (class `CrosswordCreator`),
together with proofs about its node consistency, arc consistency (AC-3),
and backtracking search.

The puzzle description (`crossword.py`: slot variables, overlap table,
word list, neighbor relation) is consumed by the solver but is not among
the sources; it is modelled from the specification, as marked on the
definitions below.  Python strings are lists of characters, the mutable
domain dictionary is a total function from slot variables to candidate
lists, and the mutable assignment dictionary is an insertion-ordered
association list.  Fallible operations (string indexing, unpacking a
missing overlap) return `Option`: `none` models a crash.  The two
recursive procedures (`ac3`'s worklist loop and `backtrack`) take a fuel
argument bounding their number of steps; their callers supply enough fuel,
and the safety theorems prove the fuel is never exhausted.
-/

/-- Words are Python strings, modelled as lists of characters. -/
abbrev Word := List Char

/-- Modelled from the spec: a slot variable of the puzzle description
(`crossword.py` is not among the sources).  A slot variable has a
position, a direction and a required length, and two slot variables are
equal iff all four attributes match (spec section 3). -/
structure Var where
  row : Nat
  col : Nat
  down : Bool
  length : Nat
deriving DecidableEq

/-- Modelled from the spec: the immutable puzzle description consumed by
the solver: a finite set of slot variables, a total overlap table, and the
word list (spec sections 2 and 6). -/
structure Puzzle where
  vars : List Var
  overlaps : Var → Var → Option (Nat × Nat)
  words : List Word

/-- Modelled from the spec: a syntactically valid puzzle description: a
non-empty set of slot variables, distinct words, and an overlap table
computed once from the grid geometry, so that its index pairs are in range
of the two slots and the two query directions give swapped index pairs
(spec sections 3 and 6). -/
def Puzzle.wellFormed (p : Puzzle) : Prop :=
  p.vars ≠ [] ∧ p.vars.Nodup ∧ p.words.Nodup ∧
    (∀ x y i j, p.overlaps x y = some (i, j) → i < x.length ∧ j < y.length) ∧
    (∀ x y i j, p.overlaps x y = some (i, j) → p.overlaps y x = some (j, i))

/-- Modelled from the spec: `crossword.neighbors(x)`: the slot variables
distinct from `x` that share an overlap with `x` (spec section 4.2). -/
def neighbors (p : Puzzle) (x : Var) : List Var :=
  p.vars.filter (fun y => !(y == x) && (p.overlaps x y).isSome)

/-- The domain store `self.domains`: each slot variable's current
candidate word list. -/
abbrev Dom := Var → List Word

/-- `CrosswordCreator.__init__`: every variable's domain starts as a copy
of the full word list. -/
def initDomains (p : Puzzle) : Dom := fun _ => p.words

/-- `CrosswordCreator.enforce_node_consistency`: remove from each
variable's domain the words whose length differs from the variable's
length. -/
def enforceNodeConsistency (d : Dom) : Dom :=
  fun v => (d v).filter (fun w => w.length == v.length)

/-- One evaluation of `x_val[i] == y_val[j]` in `revise`; `none` models an
out-of-range string index (an `IndexError`). -/
def charEq (wx : Word) (i : Nat) (wy : Word) (j : Nat) : Option Bool := do
  let a ← wx[i]?
  let b ← wy[j]?
  pure (a == b)

/-- The inner loop of `CrosswordCreator.revise`: does some word of `ys`
match `wx` at the overlap position (with early exit on the first match)? -/
def anyMatch (i j : Nat) (wx : Word) : List Word → Option Bool
  | [] => pure false
  | wy :: rest => do
    let m ← charEq wx i wy j
    if m then pure true else anyMatch i j wx rest

/-- The outer loop of `CrosswordCreator.revise`: keep the words of `xs`
that have a match in `ys`, and report whether any word was removed. -/
def reviseFilter (i j : Nat) (ys : List Word) : List Word → Option (List Word × Bool)
  | [] => pure ([], false)
  | wx :: rest => do
    let m ← anyMatch i j wx ys
    let (keep, rev) ← reviseFilter i j ys rest
    if m then pure (wx :: keep, rev) else pure (keep, true)

/-- `CrosswordCreator.revise`. -/
def revise (p : Puzzle) (d : Dom) (x y : Var) : Option (Dom × Bool) :=
  match p.overlaps x y with
  | none => some (d, false)
  | some (i, j) => do
    let (ws, rev) ← reviseFilter i j (d y) (d x)
    pure (fun v => if v = x then ws else d v, rev)

/-- The total number of candidate words over the puzzle's variables (the
termination measure of the `ac3` worklist loop). -/
def totalSize (p : Puzzle) (d : Dom) : Nat :=
  (p.vars.map (fun v => (d v).length)).sum

/-- The seeding of the `ac3` worklist when no arcs are supplied: every
ordered pair of neighboring variables. -/
def initialQueue (p : Puzzle) : List (Var × Var) :=
  p.vars.flatMap (fun v1 => (neighbors p v1).map (fun v2 => (v1, v2)))

/-- The worklist loop of `CrosswordCreator.ac3`: pop an arc, revise, stop
with `false` if a domain was emptied, otherwise re-enqueue the affected
arcs.  The fuel argument only bounds the number of iterations; `ac3`
supplies enough fuel for the loop to always run to completion. -/
def ac3Go (p : Puzzle) : Nat → Dom → List (Var × Var) → Option (Dom × Bool)
  | 0, _, _ => none
  | _ + 1, d, [] => some (d, true)
  | fuel + 1, d, (x, y) :: rest => do
    let (d1, rev) ← revise p d x y
    if rev then
      if d1 x = [] then some (d1, false)
      else
        ac3Go p fuel d1
          (rest ++ ((neighbors p x).filter (fun z => !(z == y))).map (fun z => (z, x)))
    else ac3Go p fuel d1 rest

/-- `CrosswordCreator.ac3`: with `arcs = none` the queue is seeded with
all arcs of the problem. -/
def ac3 (p : Puzzle) (d : Dom) (arcs : Option (List (Var × Var))) : Option (Dom × Bool) :=
  ac3Go p ((arcs.getD (initialQueue p)).length + totalSize p d * p.vars.length + 1) d
    (arcs.getD (initialQueue p))

/-- An assignment: an insertion-ordered association list from slot
variables to words, mirroring the Python `dict`. -/
abbrev Assn := List (Var × Word)

/-- `CrosswordCreator.assignment_complete`. -/
def assignmentComplete (p : Puzzle) (a : Assn) : Bool :=
  p.vars.all (fun v => (a.lookup v).isSome)

/-- The neighbor loop of `CrosswordCreator.consistent` for one entry
`(v, w)`: compare the overlap characters against every assigned neighbor;
`none` models a crash (unpacking a missing overlap, or indexing out of
range). -/
def checkNeighbors (p : Puzzle) (a : Assn) (v : Var) (w : Word) : List Var → Option Bool
  | [] => pure true
  | nb :: rest =>
    match a.lookup nb with
    | none => checkNeighbors p a v w rest
    | some nw =>
      match p.overlaps v nb with
      | none => none
      | some (i, j) => do
        let cv ← w[i]?
        let cn ← nw[j]?
        if cv == cn then checkNeighbors p a v w rest else pure false

/-- The per-entry loop of `CrosswordCreator.consistent`: length check,
then overlap checks against the assigned neighbors. -/
def checkVars (p : Puzzle) (a : Assn) : List (Var × Word) → Option Bool
  | [] => pure true
  | (v, w) :: rest =>
    if v.length ≠ w.length then pure false
    else do
      let ok ← checkNeighbors p a v w (neighbors p v)
      if ok then checkVars p a rest else pure false

/-- `CrosswordCreator.consistent`: pairwise distinct words, correct
lengths, and matching overlap characters. -/
def consistent (p : Puzzle) (a : Assn) : Option Bool :=
  if (a.map Prod.snd).Nodup then checkVars p a a else pure false

/-- Lexicographic order on words, as Python compares strings. -/
def wordLeB : Word → Word → Bool
  | [], _ => true
  | _ :: _, [] => false
  | a :: as, b :: bs => if a < b then true else if a = b then wordLeB as bs else false

/-- The order on `(eliminated_count, word)` score pairs used by
`sorted(scores)`: Python compares tuples lexicographically. -/
def scoreLe (s t : Nat × Word) : Prop :=
  s.1 < t.1 ∨ (s.1 = t.1 ∧ wordLeB s.2 t.2 = true)

instance : DecidableRel scoreLe := fun s t => by
  unfold scoreLe; infer_instance

/-- The innermost loop of `CrosswordCreator.order_domain_values`: how many
of the neighbor's candidate words conflict with `wx` at the overlap
position. -/
def countElim (i j : Nat) (wx : Word) : List Word → Option Nat
  | [] => pure 0
  | wy :: rest => do
    let a ← wx[i]?
    let b ← wy[j]?
    let n ← countElim i j wx rest
    pure (if a == b then n else n + 1)

/-- The neighbor loop of `order_domain_values`: sum the conflicts of `wx`
over the unassigned neighbors. -/
def elimOverNeighbors (p : Puzzle) (d : Dom) (a : Assn) (var : Var) (wx : Word) :
    List Var → Option Nat
  | [] => pure 0
  | nb :: rest =>
    if (a.lookup nb).isSome then elimOverNeighbors p d a var wx rest
    else
      match p.overlaps var nb with
      | none => none
      | some (i, j) => do
        let c ← countElim i j wx (d nb)
        let cs ← elimOverNeighbors p d a var wx rest
        pure (c + cs)

/-- The `scores` list of `order_domain_values`, in domain order. -/
def buildScores (p : Puzzle) (d : Dom) (a : Assn) (var : Var) :
    List Word → Option (List (Nat × Word))
  | [] => pure []
  | wx :: rest => do
    let c ← elimOverNeighbors p d a var wx (neighbors p var)
    let s ← buildScores p d a var rest
    pure ((c, wx) :: s)

/-- `CrosswordCreator.order_domain_values`: sort the scored domain words
by ascending `(eliminated_count, word)` (Python's stable `sorted` on
pairs; insertion sort is a stable sort). -/
def orderDomainValues (p : Puzzle) (d : Dom) (var : Var) (a : Assn) :
    Option (List Word) := do
  let scores ← buildScores p d a var (d var)
  pure ((List.insertionSort scoreLe scores).map Prod.snd)

/-- The sort key order of `CrosswordCreator.select_unassigned_variable`:
ascending domain size, ties broken by descending degree. -/
def varLe (p : Puzzle) (d : Dom) (u v : Var) : Prop :=
  (d u).length < (d v).length ∨
    ((d u).length = (d v).length ∧ (neighbors p v).length ≤ (neighbors p u).length)

instance (p : Puzzle) (d : Dom) : DecidableRel (varLe p d) := fun u v => by
  unfold varLe; infer_instance

/-- `CrosswordCreator.select_unassigned_variable`: sort the unassigned
variables by `(domain size, -degree)` and take the first, if any. -/
def selectUnassigned (p : Puzzle) (d : Dom) (a : Assn) : Option Var :=
  (List.insertionSort (varLe p d) (p.vars.filter (fun v => !(a.lookup v).isSome))).head?

/-- `del assignment[var]`. -/
def eraseKey (a : Assn) (x : Var) : Assn :=
  a.filter (fun e => !(e.1 == x))

/-- The `for value in self.order_domain_values(var, assignment)` loop of
`CrosswordCreator.backtrack`, threading the mutable assignment: assign the
value, check consistency, recurse, and undo the assignment when the value
does not lead to a solution.  `bt` is the recursive call at the next
depth. -/
def tryValues (p : Puzzle) (bt : Assn → Option (Option Assn × Assn)) (var : Var) :
    List Word → Assn → Option (Option Assn × Assn)
  | [], a => some (none, a)
  | val :: rest, a => do
    let a1 := a ++ [(var, val)]
    let c ← consistent p a1
    if c then
      match ← bt a1 with
      | (some r, s) => pure (some r, s)
      | (none, s) => tryValues p bt var rest (eraseKey s var)
    else tryValues p bt var rest (eraseKey a1 var)

/-- `CrosswordCreator.backtrack`, with the mutable assignment dictionary
threaded through and a fuel bound on the recursion depth (`solve` supplies
`p.vars.length + 1`, which is never exhausted — see the safety theorems).
The first component of a result is the return value (`none` = search
failure), the second the final state of the assignment. -/
def backtrackF (p : Puzzle) (d : Dom) : Nat → Assn → Option (Option Assn × Assn)
  | 0, _ => none
  | fuel + 1, a =>
    if assignmentComplete p a then some (some a, a)
    else
      match selectUnassigned p d a with
      | none => none
      | some var => do
        let vals ← orderDomainValues p d var a
        tryValues p (backtrackF p d fuel) var vals a

/-- `CrosswordCreator.solve`: node consistency, then `ac3` (whose boolean
result the source discards), then backtracking search from the empty
assignment. -/
def solve (p : Puzzle) : Option (Option Assn) := do
  let (d1, _) ← ac3 p (enforceNodeConsistency (initDomains p)) none
  let (r, _) ← backtrackF p d1 (p.vars.length + 1) []
  pure r

/-- `solve`, instrumented with a flag recording that the backtracking
search step was invoked: in the source the call to `backtrack` is
unconditional, the boolean result of `ac3` is never consulted. -/
def solveInstr (p : Puzzle) : Option (Option Assn × Bool) := do
  let (d1, _) ← ac3 p (enforceNodeConsistency (initDomains p)) none
  let (r, _) ← backtrackF p d1 (p.vars.length + 1) []
  pure (r, true)

/-- The domain store invariant stated in the spec (section 3): every
candidate word of a variable has the variable's length.  Established by
node consistency and preserved by pruning. -/
def lenInv (p : Puzzle) (d : Dom) : Prop :=
  ∀ v ∈ p.vars, ∀ w ∈ d v, w.length = v.length

/-- `wx` has a matching candidate in `ys` at overlap position `(i, j)`. -/
def hasSupport (i j : Nat) (ys : List Word) (wx : Word) : Bool :=
  ys.any (fun wy => wx[i]? == wy[j]?)

/-- Arc consistency of the arc `(x, y)`: every candidate of `x` has a
compatible candidate of `y` at the recorded overlap position. -/
def arcCons (p : Puzzle) (d : Dom) (x y : Var) : Prop :=
  ∀ i j, p.overlaps x y = some (i, j) → ∀ wx ∈ d x, ∃ wy ∈ d y, wx[i]? = wy[j]?

/-- Entry invariant of an assignment built by the search: keys are puzzle
variables and values have the key's length. -/
def assnInv (p : Puzzle) (a : Assn) : Prop :=
  ∀ e ∈ a, e.1 ∈ p.vars ∧ (e.2 : Word).length = e.1.length

/-- The number of still-unassigned puzzle variables. -/
def countUnassigned (p : Puzzle) (a : Assn) : Nat :=
  (p.vars.filter (fun v => !(a.lookup v).isSome)).length

theorem mem_neighbors {p : Puzzle} {x y : Var} :
    y ∈ neighbors p x ↔ y ∈ p.vars ∧ y ≠ x ∧ (p.overlaps x y).isSome := by
  simp [neighbors, List.mem_filter]

theorem assnLookup_mem {a : Assn} {k : Var} {w : Word} (h : a.lookup k = some w) :
    (k, w) ∈ a := by
  induction a with
  | nil => simp [List.lookup] at h
  | cons e rest ih =>
    obtain ⟨k1, w1⟩ := e
    rw [List.lookup] at h
    by_cases hk : k = k1
    · subst hk
      simp at h
      simp [h]
    · have : (k == k1) = false := beq_false_of_ne hk
      rw [this] at h
      exact List.mem_cons_of_mem _ (ih h)

theorem assnLookup_none_iff {a : Assn} {k : Var} :
    a.lookup k = none ↔ ∀ e ∈ a, e.1 ≠ k := by
  induction a with
  | nil => simp [List.lookup]
  | cons e rest ih =>
    obtain ⟨k1, w1⟩ := e
    rw [List.lookup]
    by_cases hk : k = k1
    · subst hk; simp
    · have hb : (k == k1) = false := beq_false_of_ne hk
      rw [hb]
      simp only [List.mem_cons, ne_eq]
      constructor
      · intro h e he
        rcases he with rfl | he
        · simpa using Ne.symm hk
        · exact ih.mp h e he
      · intro h
        exact ih.mpr (fun e he => h e (Or.inr he))

theorem assnLookup_append (a b : Assn) (k : Var) :
    (a ++ b).lookup k = (a.lookup k).or (b.lookup k) := by
  induction a with
  | nil => simp [List.lookup]
  | cons e rest ih =>
    obtain ⟨k1, w1⟩ := e
    by_cases hk : k = k1
    · subst hk; simp [List.lookup]
    · have hb : (k == k1) = false := beq_false_of_ne hk
      simp only [List.cons_append, List.lookup, hb, List.append_eq, ih]

theorem assnLookup_append_self {a : Assn} {x : Var} {w : Word}
    (h : a.lookup x = none) : (a ++ [(x, w)]).lookup x = some w := by
  rw [assnLookup_append, h]
  simp [List.lookup]

theorem assnLookup_append_ne {a : Assn} {x v : Var} (w : Word) (h : v ≠ x) :
    (a ++ [(x, w)]).lookup v = a.lookup v := by
  rw [assnLookup_append]
  have hb : (v == x) = false := beq_false_of_ne h
  cases hv : a.lookup v <;> simp [List.lookup, hb]

theorem eraseKey_append_fresh {a : Assn} {x : Var} {w : Word}
    (h : a.lookup x = none) : eraseKey (a ++ [(x, w)]) x = a := by
  have hall := assnLookup_none_iff.mp h
  unfold eraseKey
  rw [List.filter_append]
  have h1 : a.filter (fun e => !(e.1 == x)) = a := by
    rw [List.filter_eq_self]
    intro e he
    simpa using hall e he
  have h2 : List.filter (fun e => !(e.1 == x)) [(x, w)] = [] := by simp
  rw [h1, h2, List.append_nil]

theorem sum_le_pointwise {l : List Var} {f g : Var → Nat}
    (hle : ∀ v ∈ l, f v ≤ g v) : (l.map f).sum ≤ (l.map g).sum := by
  induction l with
  | nil => simp
  | cons y t ih =>
    simp only [List.map_cons, List.sum_cons]
    have h1 := hle y (List.mem_cons_self _ _)
    have h2 := ih (fun v hv => hle v (List.mem_cons_of_mem _ hv))
    omega

theorem sum_lt_pointwise {l : List Var} {f g : Var → Nat} {x : Var} (hx : x ∈ l)
    (hle : ∀ v ∈ l, f v ≤ g v) (hlt : f x < g x) :
    (l.map f).sum < (l.map g).sum := by
  induction l with
  | nil => cases hx
  | cons y t ih =>
    simp only [List.map_cons, List.sum_cons]
    rcases List.mem_cons.mp hx with rfl | hx2
    · have := sum_le_pointwise (fun v hv => hle v (List.mem_cons_of_mem _ hv))
      omega
    · have h1 := hle y (List.mem_cons_self _ _)
      have h2 := ih hx2 (fun v hv => hle v (List.mem_cons_of_mem _ hv))
      omega

theorem anyMatch_eq {i j : Nat} {wx : Word} (hi : i < wx.length) :
    ∀ {ys : List Word}, (∀ wy ∈ ys, j < wy.length) →
      anyMatch i j wx ys = some (hasSupport i j ys wx) := by
  intro ys
  induction ys with
  | nil => intro _; rfl
  | cons wy rest ih =>
    intro hys
    have hj : j < wy.length := hys wy (List.mem_cons_self _ _)
    obtain ⟨ca, hca⟩ : ∃ c, wx[i]? = some c := by
      cases h : wx[i]?
      · exact absurd (List.getElem?_eq_none_iff.mp h) (Nat.not_le.mpr hi)
      · exact ⟨_, rfl⟩
    obtain ⟨cb, hcb⟩ : ∃ c, wy[j]? = some c := by
      cases h : wy[j]?
      · exact absurd (List.getElem?_eq_none_iff.mp h) (Nat.not_le.mpr hj)
      · exact ⟨_, rfl⟩
    have ihr := ih (fun w hw => hys w (List.mem_cons_of_mem _ hw))
    rw [anyMatch, charEq, hca, hcb]
    by_cases hc : ca = cb
    · simp [hc, hasSupport, hca, hcb]
    · have hcf : (ca == cb) = false := beq_false_of_ne hc
      simp [hasSupport, hca, hcb, hcf, ihr]

theorem reviseFilter_eq {i j : Nat} {ys : List Word} (hys : ∀ wy ∈ ys, j < wy.length) :
    ∀ {xs : List Word}, (∀ wx ∈ xs, i < wx.length) →
      reviseFilter i j ys xs =
        some (xs.filter (hasSupport i j ys), !xs.all (hasSupport i j ys)) := by
  intro xs
  induction xs with
  | nil => intro _; rfl
  | cons wx rest ih =>
    intro hxs
    have h1 := anyMatch_eq (hxs wx (List.mem_cons_self _ _)) hys
    have h2 := ih (fun w hw => hxs w (List.mem_cons_of_mem _ hw))
    rw [reviseFilter, h1, h2]
    cases hs : hasSupport i j ys wx
    · simp [hs, List.filter_cons, List.all_cons]
    · simp [hs, List.filter_cons, List.all_cons]

theorem reviseFilter_sublist {i j : Nat} {ys : List Word} :
    ∀ {xs l : List Word} {rev : Bool}, reviseFilter i j ys xs = some (l, rev) →
      l.Sublist xs := by
  intro xs
  induction xs with
  | nil =>
    intro l rev h
    rw [reviseFilter] at h
    simp at h
    simp [h]
  | cons wx rest ih =>
    intro l rev h
    rw [reviseFilter] at h
    cases hm : anyMatch i j wx ys with
    | none => rw [hm] at h; simp at h
    | some m =>
      rw [hm] at h
      cases hr : reviseFilter i j ys rest with
      | none => rw [hr] at h; simp at h
      | some pr =>
        obtain ⟨keep, rv⟩ := pr
        rw [hr] at h
        cases m
        · simp at h
          exact h.1 ▸ (ih hr).cons wx
        · simp at h
          exact h.1 ▸ (ih hr).cons₂ wx

theorem reviseFilter_not_revised {i j : Nat} {ys : List Word} :
    ∀ {xs l : List Word}, reviseFilter i j ys xs = some (l, false) → l = xs := by
  intro xs
  induction xs with
  | nil =>
    intro l h
    rw [reviseFilter] at h
    simp at h
    exact h
  | cons wx rest ih =>
    intro l h
    rw [reviseFilter] at h
    cases hm : anyMatch i j wx ys with
    | none => rw [hm] at h; simp at h
    | some m =>
      rw [hm] at h
      cases hr : reviseFilter i j ys rest with
      | none => rw [hr] at h; simp at h
      | some pr =>
        obtain ⟨keep, rv⟩ := pr
        rw [hr] at h
        cases m
        · simp at h
        · simp at h
          have hk : keep = rest := ih (by rw [hr, h.2])
          rw [← h.1, hk]

theorem reviseFilter_revised {i j : Nat} {ys : List Word} :
    ∀ {xs l : List Word}, reviseFilter i j ys xs = some (l, true) →
      l.length < xs.length := by
  intro xs
  induction xs with
  | nil =>
    intro l h
    rw [reviseFilter] at h
    simp at h
  | cons wx rest ih =>
    intro l h
    rw [reviseFilter] at h
    cases hm : anyMatch i j wx ys with
    | none => rw [hm] at h; simp at h
    | some m =>
      rw [hm] at h
      cases hr : reviseFilter i j ys rest with
      | none => rw [hr] at h; simp at h
      | some pr =>
        obtain ⟨keep, rv⟩ := pr
        rw [hr] at h
        cases m
        · simp at h
          have hle := (reviseFilter_sublist hr).length_le
          rw [← h]
          simp only [List.length_cons]
          omega
        · simp at h
          have hlt : keep.length < rest.length := ih (by rw [hr, h.2])
          rw [← h.1]
          simp only [List.length_cons]
          omega

theorem revise_ne {p : Puzzle} {d : Dom} {x y : Var} {d1 : Dom} {rev : Bool}
    (h : revise p d x y = some (d1, rev)) : ∀ v, v ≠ x → d1 v = d v := by
  intro v hv
  rw [revise] at h
  cases ho : p.overlaps x y with
  | none =>
    rw [ho] at h
    simp at h
    rw [← h.1]
  | some ij =>
    obtain ⟨i, j⟩ := ij
    rw [ho] at h
    dsimp only at h
    cases hr : reviseFilter i j (d y) (d x) with
    | none => rw [hr] at h; simp at h
    | some pr =>
      obtain ⟨ws, rv⟩ := pr
      rw [hr] at h
      simp at h
      rw [← h.1]
      simp [hv]

theorem revise_sublist {p : Puzzle} {d : Dom} {x y : Var} {d1 : Dom} {rev : Bool}
    (h : revise p d x y = some (d1, rev)) : (d1 x).Sublist (d x) := by
  rw [revise] at h
  cases ho : p.overlaps x y with
  | none =>
    rw [ho] at h
    simp at h
    rw [← h.1]
  | some ij =>
    obtain ⟨i, j⟩ := ij
    rw [ho] at h
    dsimp only at h
    cases hr : reviseFilter i j (d y) (d x) with
    | none => rw [hr] at h; simp at h
    | some pr =>
      obtain ⟨ws, rv⟩ := pr
      rw [hr] at h
      simp at h
      rw [← h.1]
      simpa using reviseFilter_sublist hr

theorem revise_sublist_all {p : Puzzle} {d : Dom} {x y : Var} {d1 : Dom} {rev : Bool}
    (h : revise p d x y = some (d1, rev)) : ∀ v, (d1 v).Sublist (d v) := by
  intro v
  by_cases hv : v = x
  · subst hv; exact revise_sublist h
  · rw [revise_ne h v hv]

theorem revise_false {p : Puzzle} {d : Dom} {x y : Var} {d1 : Dom}
    (h : revise p d x y = some (d1, false)) : d1 = d := by
  rw [revise] at h
  cases ho : p.overlaps x y with
  | none =>
    rw [ho] at h
    simp at h
    exact h.symm
  | some ij =>
    obtain ⟨i, j⟩ := ij
    rw [ho] at h
    dsimp only at h
    cases hr : reviseFilter i j (d y) (d x) with
    | none => rw [hr] at h; simp at h
    | some pr =>
      obtain ⟨ws, rv⟩ := pr
      rw [hr] at h
      simp at h
      have hws : ws = d x := reviseFilter_not_revised (h.2 ▸ hr)
      rw [← h.1, hws]
      funext v
      by_cases hv : v = x <;> simp [hv]

theorem revise_true {p : Puzzle} {d : Dom} {x y : Var} {d1 : Dom}
    (h : revise p d x y = some (d1, true)) : (d1 x).length < (d x).length := by
  rw [revise] at h
  cases ho : p.overlaps x y with
  | none => rw [ho] at h; simp at h
  | some ij =>
    obtain ⟨i, j⟩ := ij
    rw [ho] at h
    dsimp only at h
    cases hr : reviseFilter i j (d y) (d x) with
    | none => rw [hr] at h; simp at h
    | some pr =>
      obtain ⟨ws, rv⟩ := pr
      rw [hr] at h
      simp at h
      have hlt := reviseFilter_revised (h.2 ▸ hr)
      rw [← h.1]
      simpa using hlt

theorem revise_eq {p : Puzzle} {d : Dom} {x y : Var} {i j : Nat}
    (ho : p.overlaps x y = some (i, j))
    (hx : ∀ w ∈ d x, i < w.length) (hy : ∀ w ∈ d y, j < w.length) :
    revise p d x y =
      some (fun v => if v = x then (d x).filter (hasSupport i j (d y)) else d v,
        !(d x).all (hasSupport i j (d y))) := by
  rw [revise, ho]
  dsimp only
  rw [reviseFilter_eq hy hx]
  rfl

theorem ac3Go_sublist {p : Puzzle} :
    ∀ {fuel : Nat} {d : Dom} {queue : List (Var × Var)} {d1 : Dom} {b : Bool},
      ac3Go p fuel d queue = some (d1, b) → ∀ v, (d1 v).Sublist (d v) := by
  intro fuel
  induction fuel with
  | zero => intro d queue d1 b h; simp [ac3Go] at h
  | succ fuel ih =>
    intro d queue d1 b h
    match queue with
    | [] =>
      rw [ac3Go] at h
      simp at h
      intro v
      rw [h.1]
    | (x, y) :: rest =>
      rw [ac3Go] at h
      cases hrv : revise p d x y with
      | none => rw [hrv] at h; simp at h
      | some pr =>
        obtain ⟨dr, rev⟩ := pr
        rw [hrv] at h
        simp only [Option.bind_eq_bind, Option.some_bind] at h
        have hsub := revise_sublist_all hrv
        cases rev
        · rw [if_neg Bool.false_ne_true] at h
          exact fun v => (ih h v).trans (hsub v)
        · rw [if_pos rfl] at h
          by_cases hempty : dr x = []
          · rw [if_pos hempty] at h
            simp at h
            intro v
            rw [← h.1]
            exact hsub v
          · rw [if_neg hempty] at h
            exact fun v => (ih h v).trans (hsub v)

theorem ac3Go_false {p : Puzzle} :
    ∀ {fuel : Nat} {d : Dom} {queue : List (Var × Var)} {d1 : Dom},
      ac3Go p fuel d queue = some (d1, false) →
      (∀ a ∈ queue, a.1 ∈ p.vars) → ∃ x ∈ p.vars, d1 x = [] := by
  intro fuel
  induction fuel with
  | zero => intro d queue d1 h; simp [ac3Go] at h
  | succ fuel ih =>
    intro d queue d1 h hq
    match queue with
    | [] => rw [ac3Go] at h; simp at h
    | (x, y) :: rest =>
      rw [ac3Go] at h
      cases hrv : revise p d x y with
      | none => rw [hrv] at h; simp at h
      | some pr =>
        obtain ⟨dr, rev⟩ := pr
        rw [hrv] at h
        simp only [Option.bind_eq_bind, Option.some_bind] at h
        cases rev
        · rw [if_neg Bool.false_ne_true] at h
          exact ih h (fun a ha => hq a (List.mem_cons_of_mem _ ha))
        · rw [if_pos rfl] at h
          by_cases hempty : dr x = []
          · rw [if_pos hempty] at h
            simp at h
            exact ⟨x, hq _ (List.mem_cons_self _ _), h ▸ hempty⟩
          · rw [if_neg hempty] at h
            refine ih h ?_
            intro a ha
            rcases List.mem_append.mp ha with ha | ha
            · exact hq a (List.mem_cons_of_mem _ ha)
            · obtain ⟨z, hz, rfl⟩ := List.mem_map.mp ha
              exact (mem_neighbors.mp (List.mem_of_mem_filter hz)).1

theorem ac3Go_true_nonempty {p : Puzzle} :
    ∀ {fuel : Nat} {d : Dom} {queue : List (Var × Var)} {d1 : Dom},
      ac3Go p fuel d queue = some (d1, true) →
      ∀ v, d1 v = [] → d v = [] := by
  intro fuel
  induction fuel with
  | zero => intro d queue d1 h; simp [ac3Go] at h
  | succ fuel ih =>
    intro d queue d1 h
    match queue with
    | [] =>
      rw [ac3Go] at h
      simp at h
      intro v hv
      rw [h, hv]
    | (x, y) :: rest =>
      rw [ac3Go] at h
      cases hrv : revise p d x y with
      | none => rw [hrv] at h; simp at h
      | some pr =>
        obtain ⟨dr, rev⟩ := pr
        rw [hrv] at h
        simp only [Option.bind_eq_bind, Option.some_bind] at h
        cases rev
        · rw [if_neg Bool.false_ne_true] at h
          have hdr : dr = d := revise_false hrv
          intro v hv
          rw [← hdr]
          exact ih h v hv
        · rw [if_pos rfl] at h
          by_cases hempty : dr x = []
          · rw [if_pos hempty] at h
            simp at h
          · rw [if_neg hempty] at h
            intro v hv
            have hdrv : dr v = [] := ih h v hv
            by_cases hvx : v = x
            · exact absurd (hvx ▸ hdrv) hempty
            · rw [← revise_ne hrv v hvx, hdrv]

theorem ac3Go_isSome {p : Puzzle}
    (hov : ∀ x y i j, p.overlaps x y = some (i, j) → i < x.length ∧ j < y.length) :
    ∀ {fuel : Nat} {d : Dom} {queue : List (Var × Var)},
      lenInv p d →
      (∀ a ∈ queue, a.1 ∈ p.vars ∧ a.2 ∈ p.vars) →
      queue.length + totalSize p d * p.vars.length < fuel →
      ∃ out, ac3Go p fuel d queue = some out := by
  intro fuel
  induction fuel with
  | zero => intro d queue _ _ hf; omega
  | succ fuel ih =>
    intro d queue hlen hq hf
    match queue with
    | [] => exact ⟨(d, true), by rw [ac3Go]⟩
    | (x, y) :: rest =>
      have hx : x ∈ p.vars := (hq _ (List.mem_cons_self _ _)).1
      have hy : y ∈ p.vars := (hq _ (List.mem_cons_self _ _)).2
      have hrev : ∃ dr rev, revise p d x y = some (dr, rev) := by
        cases ho : p.overlaps x y with
        | none => exact ⟨d, false, by rw [revise, ho]⟩
        | some ij =>
          obtain ⟨i, j⟩ := ij
          obtain ⟨hi, hj⟩ := hov x y i j ho
          refine ⟨_, _, revise_eq ho ?_ ?_⟩
          · intro w hw; rw [hlen x hx w hw]; exact hi
          · intro w hw; rw [hlen y hy w hw]; exact hj
      obtain ⟨dr, rev, hrv⟩ := hrev
      have hsub := revise_sublist_all hrv
      have hlen1 : lenInv p dr := fun v hv w hw => hlen v hv w ((hsub v).subset hw)
      rw [ac3Go, hrv]
      simp only [Option.bind_eq_bind, Option.some_bind]
      cases rev
      · have hdr : dr = d := revise_false hrv
        rw [if_neg Bool.false_ne_true]
        subst hdr
        refine ih hlen1 (fun a ha => hq a (List.mem_cons_of_mem _ ha)) ?_
        simp only [List.length_cons] at hf
        omega
      · rw [if_pos rfl]
        by_cases hempty : dr x = []
        · rw [if_pos hempty]
          exact ⟨(dr, false), rfl⟩
        · rw [if_neg hempty]
          have hlt : (dr x).length < (d x).length := revise_true hrv
          have hts : totalSize p dr < totalSize p d :=
            sum_lt_pointwise hx (fun v _ => (hsub v).length_le) hlt
          refine ih hlen1 ?_ ?_
          · intro a ha
            rcases List.mem_append.mp ha with ha | ha
            · exact hq a (List.mem_cons_of_mem _ ha)
            · obtain ⟨z, hz, rfl⟩ := List.mem_map.mp ha
              exact ⟨(mem_neighbors.mp (List.mem_of_mem_filter hz)).1, hx⟩
          · have hnew :
                (((neighbors p x).filter (fun z => !(z == y))).map
                  (fun z => (z, x))).length ≤ p.vars.length := by
              rw [List.length_map]
              exact le_trans (List.length_filter_le _ _) (List.length_filter_le _ _)
            have hmul : totalSize p dr * p.vars.length + p.vars.length ≤
                totalSize p d * p.vars.length := by
              have h1 : totalSize p dr + 1 ≤ totalSize p d := hts
              calc totalSize p dr * p.vars.length + p.vars.length
                  = (totalSize p dr + 1) * p.vars.length := by ring
                _ ≤ totalSize p d * p.vars.length := Nat.mul_le_mul_right _ h1
            rw [List.length_append]
            simp only [List.length_cons] at hf
            generalize hA : totalSize p dr * p.vars.length = A at hmul
            generalize hB : totalSize p d * p.vars.length = B at hmul hf
            omega

theorem charEq_some {wx : Word} {i : Nat} {wy : Word} {j : Nat} {m : Bool}
    (h : charEq wx i wy j = some m) :
    ∃ ca cb, wx[i]? = some ca ∧ wy[j]? = some cb ∧ m = (ca == cb) := by
  rw [charEq] at h
  cases hca : wx[i]? with
  | none => rw [hca] at h; simp at h
  | some ca =>
    rw [hca] at h
    cases hcb : wy[j]? with
    | none => rw [hcb] at h; simp at h
    | some cb =>
      rw [hcb] at h
      simp at h
      exact ⟨ca, cb, rfl, rfl, h.symm⟩

theorem anyMatch_true_support {i j : Nat} {wx : Word} :
    ∀ {ys : List Word}, anyMatch i j wx ys = some true →
      ∃ wy ∈ ys, wx[i]? = wy[j]? := by
  intro ys
  induction ys with
  | nil => intro h; rw [anyMatch] at h; simp at h
  | cons wy rest ih =>
    intro h
    rw [anyMatch] at h
    cases hce : charEq wx i wy j with
    | none => rw [hce] at h; simp at h
    | some m =>
      rw [hce] at h
      simp only [Option.bind_eq_bind, Option.some_bind] at h
      cases m
      · rw [if_neg Bool.false_ne_true] at h
        obtain ⟨wy2, hmem, heq⟩ := ih h
        exact ⟨wy2, List.mem_cons_of_mem _ hmem, heq⟩
      · obtain ⟨ca, cb, hca, hcb, hm⟩ := charEq_some hce
        have : ca = cb := beq_iff_eq.mp hm.symm
        exact ⟨wy, List.mem_cons_self _ _, by rw [hca, hcb, this]⟩

theorem anyMatch_false_no_support {i j : Nat} {wx : Word} :
    ∀ {ys : List Word}, anyMatch i j wx ys = some false →
      ∀ wy ∈ ys, wx[i]? ≠ wy[j]? := by
  intro ys
  induction ys with
  | nil => intro _ wy hw; cases hw
  | cons wy0 rest ih =>
    intro h wy hw
    rw [anyMatch] at h
    cases hce : charEq wx i wy0 j with
    | none => rw [hce] at h; simp at h
    | some m =>
      rw [hce] at h
      simp only [Option.bind_eq_bind, Option.some_bind] at h
      cases m
      · rw [if_neg Bool.false_ne_true] at h
        rcases List.mem_cons.mp hw with rfl | hw2
        · obtain ⟨ca, cb, hca, hcb, hm⟩ := charEq_some hce
          have hne : ca ≠ cb := by
            intro hcc
            rw [hcc] at hm
            simp at hm
          rw [hca, hcb]
          intro hcc
          exact hne (Option.some.injEq .. ▸ hcc)
        · exact ih h wy hw2
      · rw [if_pos rfl] at h
        simp at h

theorem reviseFilter_support {i j : Nat} {ys : List Word} :
    ∀ {xs l : List Word} {rev : Bool}, reviseFilter i j ys xs = some (l, rev) →
      ∀ wx ∈ l, ∃ wy ∈ ys, wx[i]? = wy[j]? := by
  intro xs
  induction xs with
  | nil =>
    intro l rev h wx hw
    rw [reviseFilter] at h
    simp at h
    rw [h.1] at hw
    cases hw
  | cons wx0 rest ih =>
    intro l rev h wx hw
    rw [reviseFilter] at h
    cases hm : anyMatch i j wx0 ys with
    | none => rw [hm] at h; simp at h
    | some m =>
      rw [hm] at h
      cases hr : reviseFilter i j ys rest with
      | none => rw [hr] at h; simp at h
      | some pr =>
        obtain ⟨keep, rv⟩ := pr
        rw [hr] at h
        cases m
        · simp at h
          rw [← h.1] at hw
          exact ih hr wx hw
        · simp at h
          rw [← h.1] at hw
          rcases List.mem_cons.mp hw with rfl | hw2
          · exact anyMatch_true_support hm
          · exact ih hr wx hw2

theorem reviseFilter_mem {i j : Nat} {ys : List Word} :
    ∀ {xs l : List Word} {rev : Bool}, reviseFilter i j ys xs = some (l, rev) →
      ∀ wx ∈ xs, (∃ wy ∈ ys, wx[i]? = wy[j]?) → wx ∈ l := by
  intro xs
  induction xs with
  | nil => intro l rev h wx hw; cases hw
  | cons wx0 rest ih =>
    intro l rev h wx hw hsup
    rw [reviseFilter] at h
    cases hm : anyMatch i j wx0 ys with
    | none => rw [hm] at h; simp at h
    | some m =>
      rw [hm] at h
      cases hr : reviseFilter i j ys rest with
      | none => rw [hr] at h; simp at h
      | some pr =>
        obtain ⟨keep, rv⟩ := pr
        rw [hr] at h
        rcases List.mem_cons.mp hw with rfl | hw2
        · cases m
          · obtain ⟨wy, hwy, heq⟩ := hsup
            exact absurd heq (anyMatch_false_no_support hm wy hwy)
          · simp at h
            rw [← h.1]
            exact List.mem_cons_self _ _
        · cases m
          · simp at h
            rw [← h.1]
            exact ih hr wx hw2 hsup
          · simp at h
            rw [← h.1]
            exact List.mem_cons_of_mem _ (ih hr wx hw2 hsup)

theorem revise_some_cases {p : Puzzle} {d : Dom} {x y : Var} {d1 : Dom} {rev : Bool}
    (h : revise p d x y = some (d1, rev)) :
    (p.overlaps x y = none ∧ d1 = d ∧ rev = false) ∨
    (∃ i j ws, p.overlaps x y = some (i, j) ∧
      reviseFilter i j (d y) (d x) = some (ws, rev) ∧
      d1 = fun v => if v = x then ws else d v) := by
  rw [revise] at h
  cases ho : p.overlaps x y with
  | none =>
    rw [ho] at h
    simp at h
    exact Or.inl ⟨rfl, h.1.symm, h.2⟩
  | some ij =>
    obtain ⟨i, j⟩ := ij
    rw [ho] at h
    dsimp only at h
    cases hr : reviseFilter i j (d y) (d x) with
    | none => rw [hr] at h; simp at h
    | some pr =>
      obtain ⟨ws, rv⟩ := pr
      rw [hr] at h
      simp at h
      exact Or.inr ⟨i, j, ws, rfl, h.2 ▸ hr, h.1.symm⟩

theorem revise_arcCons_self {p : Puzzle} {d : Dom} {x y : Var} {d1 : Dom} {rev : Bool}
    (h : revise p d x y = some (d1, rev)) (hyx : y ≠ x) : arcCons p d1 x y := by
  intro i j ho wx hwx
  rcases revise_some_cases h with ⟨ho2, _, _⟩ | ⟨i2, j2, ws, ho2, hr, hd1⟩
  · rw [ho] at ho2; cases ho2
  · rw [ho] at ho2
    obtain ⟨rfl, rfl⟩ : i2 = i ∧ j2 = j := by
      have := Option.some.injEq .. ▸ ho2
      exact ⟨(Prod.mk.injEq .. ▸ this).1.symm, (Prod.mk.injEq .. ▸ this).2.symm⟩
    have hd1x : d1 x = ws := by rw [hd1]; simp
    have hd1y : d1 y = d y := by rw [hd1]; simp [hyx]
    rw [hd1x] at hwx
    obtain ⟨wy, hwy, heq⟩ := reviseFilter_support hr wx hwx
    exact ⟨wy, hd1y ▸ hwy, heq⟩

theorem arcCons_mono {p : Puzzle} {d d1 : Dom} {u v : Var}
    (hc : arcCons p d u v) (hu : ∀ w ∈ d1 u, w ∈ d u) (hv : d1 v = d v) :
    arcCons p d1 u v := by
  intro i j ho wx hwx
  obtain ⟨wy, hwy, heq⟩ := hc i j ho wx (hu wx hwx)
  exact ⟨wy, hv ▸ hwy, heq⟩

theorem ac3Go_arcCons {p : Puzzle}
    (hsym : ∀ x y i j, p.overlaps x y = some (i, j) → p.overlaps y x = some (j, i)) :
    ∀ {fuel : Nat} {d : Dom} {queue : List (Var × Var)} {d1 : Dom},
      (∀ a ∈ queue, a.1 ∈ p.vars ∧ a.2 ∈ neighbors p a.1) →
      (∀ u ∈ p.vars, ∀ v ∈ neighbors p u, (u, v) ∈ queue ∨ arcCons p d u v) →
      ac3Go p fuel d queue = some (d1, true) →
      ∀ u ∈ p.vars, ∀ v ∈ neighbors p u, arcCons p d1 u v := by
  intro fuel
  induction fuel with
  | zero => intro d queue d1 _ _ h; simp [ac3Go] at h
  | succ fuel ih =>
    intro d queue d1 hq hinv h
    match queue with
    | [] =>
      rw [ac3Go] at h
      simp at h
      intro u hu v hv
      rcases hinv u hu v hv with hmem | hc
      · cases hmem
      · exact h ▸ hc
    | (x, y) :: rest =>
      have hx : x ∈ p.vars := (hq _ (List.mem_cons_self _ _)).1
      have hyn : y ∈ neighbors p x := (hq _ (List.mem_cons_self _ _)).2
      have hyx : y ≠ x := (mem_neighbors.mp hyn).2.1
      rw [ac3Go] at h
      cases hrv : revise p d x y with
      | none => rw [hrv] at h; simp at h
      | some pr =>
        obtain ⟨dr, rev⟩ := pr
        rw [hrv] at h
        simp only [Option.bind_eq_bind, Option.some_bind] at h
        have hself : arcCons p dr x y := revise_arcCons_self hrv hyx
        cases rev
        · rw [if_neg Bool.false_ne_true] at h
          have hdr : dr = d := revise_false hrv
          subst hdr
          refine ih (fun a ha => hq a (List.mem_cons_of_mem _ ha)) ?_ h
          intro u hu v hv
          rcases hinv u hu v hv with hmem | hc
          · rcases List.mem_cons.mp hmem with heq | hmem2
            · have hux : u = x := congrArg Prod.fst heq
              have hvy : v = y := congrArg Prod.snd heq
              subst hux; subst hvy
              exact Or.inr hself
            · exact Or.inl hmem2
          · exact Or.inr hc
        · rw [if_pos rfl] at h
          by_cases hempty : dr x = []
          · rw [if_pos hempty] at h
            simp at h
          · rw [if_neg hempty] at h
            obtain ⟨i, j, ws, ho, hr, hdr⟩ :=
              (revise_some_cases hrv).resolve_left (by
                rintro ⟨_, _, hfalse⟩
                cases hfalse)
            have hdrx : dr x = ws := by rw [hdr]; simp
            have hdrne : ∀ v, v ≠ x → dr v = d v := by
              intro v hv; rw [hdr]; simp [hv]
            refine ih ?_ ?_ h
            · intro a ha
              rcases List.mem_append.mp ha with ha | ha
              · exact hq a (List.mem_cons_of_mem _ ha)
              · obtain ⟨z, hz, rfl⟩ := List.mem_map.mp ha
                have hzn := List.mem_of_mem_filter hz
                obtain ⟨hzv, hzx, hzo⟩ := mem_neighbors.mp hzn
                obtain ⟨i0, j0⟩ := Option.isSome_iff_exists.mp hzo
                refine ⟨hzv, mem_neighbors.mpr ⟨hx, Ne.symm hzx, ?_⟩⟩
                obtain ⟨i1, j1⟩ := i0
                rw [hsym x z i1 j1 j0]
                rfl
            · intro u hu v hv
              rcases hinv u hu v hv with hmem | hc
              · rcases List.mem_cons.mp hmem with heq | hmem2
                · have hux : u = x := congrArg Prod.fst heq
                  have hvy : v = y := congrArg Prod.snd heq
                  subst hux; subst hvy
                  exact Or.inr hself
                · exact Or.inl (List.mem_append_left _ hmem2)
              · by_cases hvx : v = x
                · subst hvx
                  by_cases huy : u = y
                  · subst huy
                    refine Or.inr ?_
                    intro i2 j2 ho2 wy hwy
                    have ho3 := hsym v u i j ho
                    have hij : i2 = j ∧ j2 = i := by
                      rw [ho2] at ho3
                      have := Option.some.injEq .. ▸ ho3
                      exact ⟨(Prod.mk.injEq .. ▸ this).1, (Prod.mk.injEq .. ▸ this).2⟩
                    obtain ⟨h1, h2⟩ := hij
                    rw [h1, h2]
                    have hwy2 : wy ∈ d u := by
                      rw [← hdrne u hyx]
                      exact hwy
                    obtain ⟨wx, hwx, heq⟩ := hc j i ho3 wy hwy2
                    have hwx2 : wx ∈ dr v := by
                      rw [hdrx]
                      exact reviseFilter_mem hr wx hwx ⟨wy, hwy2, heq.symm⟩
                    exact ⟨wx, hwx2, heq⟩
                  · refine Or.inl (List.mem_append_right _ ?_)
                    have hun : u ∈ neighbors p v := by
                      obtain ⟨hxv, hxu, hxo⟩ := mem_neighbors.mp hv
                      obtain ⟨ij0, hij0⟩ := Option.isSome_iff_exists.mp hxo
                      obtain ⟨i0, j0⟩ := ij0
                      refine mem_neighbors.mpr ⟨hu, Ne.symm hxu, ?_⟩
                      rw [hsym u v i0 j0 hij0]
                      rfl
                    refine List.mem_map.mpr ⟨u, ?_, rfl⟩
                    refine List.mem_filter.mpr ⟨hun, ?_⟩
                    simp [huy]
                · refine Or.inr (arcCons_mono hc ?_ (hdrne v hvx))
                  intro w hw
                  by_cases hux : u = x
                  · subst hux
                    rw [hdrx] at hw
                    exact (reviseFilter_sublist hr).subset hw
                  · rw [hdrne u hux] at hw
                    exact hw

theorem ac3Go_noop {p : Puzzle}
    (hov : ∀ x y i j, p.overlaps x y = some (i, j) → i < x.length ∧ j < y.length) :
    ∀ {fuel : Nat} {d : Dom} {queue : List (Var × Var)},
      lenInv p d →
      (∀ a ∈ queue, a.1 ∈ p.vars ∧ a.2 ∈ neighbors p a.1) →
      (∀ u ∈ p.vars, ∀ v ∈ neighbors p u, arcCons p d u v) →
      queue.length < fuel →
      ac3Go p fuel d queue = some (d, true) := by
  intro fuel
  induction fuel with
  | zero => intro d queue _ _ _ hf; omega
  | succ fuel ih =>
    intro d queue hlen hq hcons hf
    match queue with
    | [] => rw [ac3Go]
    | (x, y) :: rest =>
      have hx : x ∈ p.vars := (hq _ (List.mem_cons_self _ _)).1
      have hyn : y ∈ neighbors p x := (hq _ (List.mem_cons_self _ _)).2
      obtain ⟨hyv, hyx, hyo⟩ := mem_neighbors.mp hyn
      obtain ⟨ij, ho⟩ := Option.isSome_iff_exists.mp hyo
      obtain ⟨i, j⟩ := ij
      obtain ⟨hi, hj⟩ := hov x y i j ho
      have hbx : ∀ w ∈ d x, i < w.length := by
        intro w hw; rw [hlen x hx w hw]; exact hi
      have hby : ∀ w ∈ d y, j < w.length := by
        intro w hw; rw [hlen y hyv w hw]; exact hj
      have hall : (d x).all (hasSupport i j (d y)) = true := by
        rw [List.all_eq_true]
        intro wx hwx
        obtain ⟨wy, hwy, heq⟩ := hcons x hx y hyn i j ho wx hwx
        rw [hasSupport, List.any_eq_true]
        exact ⟨wy, hwy, beq_iff_eq.mpr heq⟩
      rw [ac3Go, revise_eq ho hbx hby]
      simp only [Option.bind_eq_bind, Option.some_bind]
      have hstore :
          (fun v => if v = x then (d x).filter (hasSupport i j (d y)) else d v) = d := by
        funext v
        by_cases hvx : v = x
        · subst hvx
          rw [if_pos rfl, List.filter_eq_self.mpr (List.all_eq_true.mp hall)]
        · rw [if_neg hvx]
      rw [hall, hstore]
      simp only [Bool.not_true]
      rw [if_neg Bool.false_ne_true]
      refine ih hlen (fun a ha => hq a (List.mem_cons_of_mem _ ha)) hcons ?_
      simp only [List.length_cons] at hf
      omega

theorem initialQueue_mem {p : Puzzle} {x y : Var} :
    (x, y) ∈ initialQueue p ↔ x ∈ p.vars ∧ y ∈ neighbors p x := by
  rw [initialQueue]
  constructor
  · intro h
    obtain ⟨v1, hv1, hmem⟩ := List.mem_flatMap.mp h
    obtain ⟨v2, hv2, heq⟩ := List.mem_map.mp hmem
    have h1 : v1 = x := congrArg Prod.fst heq
    have h2 : v2 = y := congrArg Prod.snd heq
    subst h1; subst h2
    exact ⟨hv1, hv2⟩
  · intro ⟨h1, h2⟩
    exact List.mem_flatMap.mpr ⟨x, h1, List.mem_map.mpr ⟨y, h2, rfl⟩⟩

theorem initialQueue_arcs {p : Puzzle} :
    ∀ a ∈ initialQueue p, a.1 ∈ p.vars ∧ a.2 ∈ neighbors p a.1 := by
  intro a ha
  obtain ⟨x, y⟩ := a
  exact initialQueue_mem.mp ha

theorem ac3_sublist {p : Puzzle} {d : Dom} {arcs : Option (List (Var × Var))}
    {d1 : Dom} {b : Bool} (h : ac3 p d arcs = some (d1, b)) :
    ∀ v, (d1 v).Sublist (d v) := by
  rw [ac3] at h
  exact ac3Go_sublist h

theorem ac3_true_nonempty {p : Puzzle} {d : Dom} {arcs : Option (List (Var × Var))}
    {d1 : Dom} (h : ac3 p d arcs = some (d1, true)) :
    ∀ v, d1 v = [] → d v = [] := by
  rw [ac3] at h
  exact ac3Go_true_nonempty h

theorem ac3_none_isSome {p : Puzzle} {d : Dom}
    (hov : ∀ x y i j, p.overlaps x y = some (i, j) → i < x.length ∧ j < y.length)
    (hlen : lenInv p d) : ∃ out, ac3 p d none = some out := by
  rw [ac3]
  simp only [Option.getD_none]
  refine ac3Go_isSome hov hlen ?_ (Nat.lt_succ_self _)
  intro a ha
  have h := initialQueue_arcs a ha
  exact ⟨h.1, (mem_neighbors.mp h.2).1⟩

theorem ac3_none_false {p : Puzzle} {d : Dom} {d1 : Dom}
    (h : ac3 p d none = some (d1, false)) : ∃ x ∈ p.vars, d1 x = [] := by
  rw [ac3] at h
  simp only [Option.getD_none] at h
  exact ac3Go_false h (fun a ha => (initialQueue_arcs a ha).1)

theorem ac3_none_arcCons {p : Puzzle} {d : Dom} {d1 : Dom}
    (hsym : ∀ x y i j, p.overlaps x y = some (i, j) → p.overlaps y x = some (j, i))
    (h : ac3 p d none = some (d1, true)) :
    ∀ u ∈ p.vars, ∀ v ∈ neighbors p u, arcCons p d1 u v := by
  rw [ac3] at h
  simp only [Option.getD_none] at h
  refine ac3Go_arcCons hsym initialQueue_arcs ?_ h
  intro u hu v hv
  exact Or.inl (initialQueue_mem.mpr ⟨hu, hv⟩)

theorem ac3_idem {p : Puzzle} {d : Dom} {d1 : Dom}
    (hov : ∀ x y i j, p.overlaps x y = some (i, j) → i < x.length ∧ j < y.length)
    (hsym : ∀ x y i j, p.overlaps x y = some (i, j) → p.overlaps y x = some (j, i))
    (hlen : lenInv p d) (h : ac3 p d none = some (d1, true)) :
    ac3 p d1 none = some (d1, true) := by
  have hlen1 : lenInv p d1 := fun v hv w hw => hlen v hv w ((ac3_sublist h v).subset hw)
  have hcons := ac3_none_arcCons hsym h
  rw [ac3]
  simp only [Option.getD_none]
  exact ac3Go_noop hov hlen1 initialQueue_arcs hcons (by omega)

theorem wordLeB_nil (b : Word) : wordLeB [] b = true := by
  cases b <;> rfl

theorem wordLeB_total : ∀ a b : Word, wordLeB a b = true ∨ wordLeB b a = true := by
  intro a
  induction a with
  | nil => intro b; exact Or.inl (wordLeB_nil b)
  | cons ca as ih =>
    intro b
    cases b with
    | nil => exact Or.inr (wordLeB_nil _)
    | cons cb bs =>
      rw [wordLeB, wordLeB]
      rcases lt_trichotomy ca cb with h | h | h
      · left; rw [if_pos h]
      · subst h
        rcases ih bs with h2 | h2
        · left
          rw [if_neg (lt_irrefl ca), if_pos rfl]
          exact h2
        · right
          rw [if_neg (lt_irrefl ca), if_pos rfl]
          exact h2
      · right; rw [if_pos h]

theorem wordLeB_trans : ∀ a b c : Word,
    wordLeB a b = true → wordLeB b c = true → wordLeB a c = true := by
  intro a
  induction a with
  | nil => intro b c _ _; exact wordLeB_nil c
  | cons ca as ih =>
    intro b c hab hbc
    cases b with
    | nil => rw [wordLeB] at hab; cases hab
    | cons cb bs =>
      cases c with
      | nil => rw [wordLeB] at hbc; cases hbc
      | cons cc cs =>
        rw [wordLeB] at hab hbc ⊢
        by_cases h1 : ca < cb
        · by_cases h2 : cb < cc
          · rw [if_pos (lt_trans h1 h2)]
          · by_cases h3 : cb = cc
            · subst h3; rw [if_pos h1]
            · rw [if_neg h2, if_neg h3] at hbc; cases hbc
        · by_cases h4 : ca = cb
          · subst h4
            by_cases h2 : ca < cc
            · rw [if_pos h2]
            · by_cases h3 : ca = cc
              · subst h3
                rw [if_neg h1, if_pos rfl] at hab hbc ⊢
                exact ih bs cs hab hbc
              · rw [if_neg h2, if_neg h3] at hbc; cases hbc
          · rw [if_neg h1, if_neg h4] at hab; cases hab

theorem wordLeB_antisymm : ∀ a b : Word,
    wordLeB a b = true → wordLeB b a = true → a = b := by
  intro a
  induction a with
  | nil =>
    intro b _ hba
    cases b with
    | nil => rfl
    | cons cb bs => rw [wordLeB] at hba; cases hba
  | cons ca as ih =>
    intro b hab hba
    cases b with
    | nil => rw [wordLeB] at hab; cases hab
    | cons cb bs =>
      rw [wordLeB] at hab hba
      by_cases h1 : ca < cb
      · rw [if_neg (lt_asymm h1), if_neg (ne_of_gt h1)] at hba; cases hba
      · by_cases h2 : ca = cb
        · subst h2
          rw [if_neg h1, if_pos rfl] at hab hba
          rw [ih bs hab hba]
        · rw [if_neg h1, if_neg h2] at hab; cases hab

instance : IsTrans (Nat × Word) scoreLe := by
  constructor
  intro a b c hab hbc
  rcases hab with h1 | ⟨h1, h1w⟩ <;> rcases hbc with h2 | ⟨h2, h2w⟩
  · exact Or.inl (lt_trans h1 h2)
  · exact Or.inl (h2 ▸ h1)
  · exact Or.inl (h1 ▸ h2)
  · exact Or.inr ⟨h1.trans h2, wordLeB_trans _ _ _ h1w h2w⟩

instance : IsTotal (Nat × Word) scoreLe := by
  constructor
  intro a b
  rcases lt_trichotomy a.1 b.1 with h | h | h
  · exact Or.inl (Or.inl h)
  · rcases wordLeB_total a.2 b.2 with h2 | h2
    · exact Or.inl (Or.inr ⟨h, h2⟩)
    · exact Or.inr (Or.inr ⟨h.symm, h2⟩)
  · exact Or.inr (Or.inl h)

instance : IsAntisymm (Nat × Word) scoreLe := by
  constructor
  intro a b hab hba
  rcases hab with h1 | ⟨h1, h1w⟩
  · rcases hba with h2 | ⟨h2, _⟩
    · exact absurd (lt_trans h1 h2) (lt_irrefl _)
    · exact absurd (h2 ▸ h1) (lt_irrefl _)
  · rcases hba with h2 | ⟨h2, h2w⟩
    · exact absurd (h1 ▸ h2) (lt_irrefl _)
    · exact Prod.ext h1 (wordLeB_antisymm _ _ h1w h2w)

instance (p : Puzzle) (d : Dom) : IsTrans Var (varLe p d) := by
  constructor
  intro a b c hab hbc
  rcases hab with h1 | ⟨h1, h1d⟩ <;> rcases hbc with h2 | ⟨h2, h2d⟩
  · exact Or.inl (lt_trans h1 h2)
  · exact Or.inl (h2 ▸ h1)
  · exact Or.inl (h1 ▸ h2)
  · exact Or.inr ⟨h1.trans h2, le_trans h2d h1d⟩

instance (p : Puzzle) (d : Dom) : IsTotal Var (varLe p d) := by
  constructor
  intro a b
  rcases lt_trichotomy (d a).length (d b).length with h | h | h
  · exact Or.inl (Or.inl h)
  · rcases le_total (neighbors p b).length (neighbors p a).length with h2 | h2
    · exact Or.inl (Or.inr ⟨h, h2⟩)
    · exact Or.inr (Or.inr ⟨h.symm, h2⟩)
  · exact Or.inr (Or.inl h)

theorem selectUnassigned_mem {p : Puzzle} {d : Dom} {a : Assn} {var : Var}
    (h : selectUnassigned p d a = some var) :
    var ∈ p.vars ∧ a.lookup var = none := by
  rw [selectUnassigned] at h
  have hmem : var ∈ List.insertionSort (varLe p d)
      (p.vars.filter (fun v => !(a.lookup v).isSome)) := by
    cases hs : List.insertionSort (varLe p d)
        (p.vars.filter (fun v => !(a.lookup v).isSome)) with
    | nil => rw [hs] at h; cases h
    | cons hd tl =>
      rw [hs] at h
      have : hd = var := by
        have := Option.some.injEq .. ▸ h
        simpa using h
      rw [← this]
      exact List.mem_cons_self _ _
  have hmem2 := (List.perm_insertionSort (varLe p d) _).subset hmem
  obtain ⟨hv, hcond⟩ := List.mem_filter.mp hmem2
  refine ⟨hv, ?_⟩
  simp only [Bool.not_eq_true'] at hcond
  exact Option.not_isSome_iff_eq_none.mp (by rw [hcond]; exact Bool.false_ne_true)

theorem selectUnassigned_isSome {p : Puzzle} {d : Dom} {a : Assn} {v0 : Var}
    (hv : v0 ∈ p.vars) (hun : a.lookup v0 = none) :
    ∃ var, selectUnassigned p d a = some var := by
  rw [selectUnassigned]
  have hmem : v0 ∈ p.vars.filter (fun v => !(a.lookup v).isSome) :=
    List.mem_filter.mpr ⟨hv, by rw [hun]; rfl⟩
  have hmem2 : v0 ∈ List.insertionSort (varLe p d)
      (p.vars.filter (fun v => !(a.lookup v).isSome)) :=
    ((List.perm_insertionSort (varLe p d) _).mem_iff).mpr hmem
  cases hs : List.insertionSort (varLe p d)
      (p.vars.filter (fun v => !(a.lookup v).isSome)) with
  | nil => rw [hs] at hmem2; cases hmem2
  | cons hd tl => exact ⟨hd, rfl⟩

theorem selectUnassigned_min {p : Puzzle} {d : Dom} {a : Assn} {var : Var}
    (h : selectUnassigned p d a = some var) :
    ∀ u ∈ p.vars, a.lookup u = none → (d var).length ≤ (d u).length := by
  intro u hu hun
  rw [selectUnassigned] at h
  have hsorted : List.Sorted (varLe p d) (List.insertionSort (varLe p d)
      (p.vars.filter (fun v => !(a.lookup v).isSome))) :=
    List.sorted_insertionSort _ _
  have humem : u ∈ List.insertionSort (varLe p d)
      (p.vars.filter (fun v => !(a.lookup v).isSome)) := by
    refine ((List.perm_insertionSort (varLe p d) _).mem_iff).mpr ?_
    exact List.mem_filter.mpr ⟨hu, by rw [hun]; rfl⟩
  cases hs : List.insertionSort (varLe p d)
      (p.vars.filter (fun v => !(a.lookup v).isSome)) with
  | nil => rw [hs] at humem; cases humem
  | cons hd tl =>
    rw [hs] at h humem hsorted
    have hhd : hd = var := by simpa using h
    subst hhd
    rcases List.mem_cons.mp humem with rfl | htl
    · exact le_refl _
    · rcases List.rel_of_sorted_cons hsorted u htl with hlt | ⟨heq, _⟩
      · exact le_of_lt hlt
      · exact le_of_eq heq

theorem buildScores_snd {p : Puzzle} {d : Dom} {a : Assn} {var : Var} :
    ∀ {xs : List Word} {s : List (Nat × Word)},
      buildScores p d a var xs = some s → s.map Prod.snd = xs := by
  intro xs
  induction xs with
  | nil =>
    intro s h
    rw [buildScores] at h
    simp at h
    rw [h]
    rfl
  | cons wx rest ih =>
    intro s h
    rw [buildScores] at h
    cases he : elimOverNeighbors p d a var wx (neighbors p var) with
    | none => rw [he] at h; simp at h
    | some c =>
      rw [he] at h
      cases hb : buildScores p d a var rest with
      | none => rw [hb] at h; simp at h
      | some s2 =>
        rw [hb] at h
        simp at h
        rw [← h, List.map_cons, ih hb]

theorem orderDomainValues_perm {p : Puzzle} {d : Dom} {var : Var} {a : Assn}
    {vals : List Word} (h : orderDomainValues p d var a = some vals) :
    vals.Perm (d var) := by
  rw [orderDomainValues] at h
  cases hb : buildScores p d a var (d var) with
  | none => rw [hb] at h; simp at h
  | some s =>
    rw [hb] at h
    simp at h
    rw [← h]
    have h1 : List.Perm ((List.insertionSort scoreLe s).map Prod.snd) (s.map Prod.snd) :=
      (List.perm_insertionSort scoreLe s).map Prod.snd
    rw [buildScores_snd hb] at h1
    exact h1

theorem orderDomainValues_empty {p : Puzzle} {d : Dom} {var : Var} {a : Assn}
    (h : d var = []) : orderDomainValues p d var a = some [] := by
  rw [orderDomainValues, h]
  rfl

theorem countElim_isSome {i j : Nat} {wx : Word} (hi : i < wx.length) :
    ∀ {ys : List Word}, (∀ wy ∈ ys, j < wy.length) →
      ∃ n, countElim i j wx ys = some n := by
  intro ys
  induction ys with
  | nil => intro _; exact ⟨0, rfl⟩
  | cons wy rest ih =>
    intro hys
    obtain ⟨n, hn⟩ := ih (fun w hw => hys w (List.mem_cons_of_mem _ hw))
    obtain ⟨ca, hca⟩ : ∃ c, wx[i]? = some c := by
      cases h2 : wx[i]?
      · exact absurd (List.getElem?_eq_none_iff.mp h2) (Nat.not_le.mpr hi)
      · exact ⟨_, rfl⟩
    obtain ⟨cb, hcb⟩ : ∃ c, wy[j]? = some c := by
      cases h2 : wy[j]?
      · exact absurd (List.getElem?_eq_none_iff.mp h2)
          (Nat.not_le.mpr (hys wy (List.mem_cons_self _ _)))
      · exact ⟨_, rfl⟩
    rw [countElim, hca, hcb]
    simp only [Option.bind_eq_bind, Option.some_bind, hn]
    exact ⟨_, rfl⟩

theorem elimOverNeighbors_isSome {p : Puzzle} {d : Dom} {a : Assn} {var : Var} {wx : Word}
    (hov : ∀ x y i j, p.overlaps x y = some (i, j) → i < x.length ∧ j < y.length)
    (hlen : lenInv p d) (hwx : wx.length = var.length) :
    ∀ {nbs : List Var}, (∀ nb ∈ nbs, nb ∈ neighbors p var) →
      ∃ n, elimOverNeighbors p d a var wx nbs = some n := by
  intro nbs
  induction nbs with
  | nil => intro _; exact ⟨0, rfl⟩
  | cons nb rest ih =>
    intro hnbs
    obtain ⟨n, hn⟩ := ih (fun z hz => hnbs z (List.mem_cons_of_mem _ hz))
    have hnb := hnbs nb (List.mem_cons_self _ _)
    obtain ⟨hnbv, hnbne, hnbo⟩ := mem_neighbors.mp hnb
    rw [elimOverNeighbors]
    by_cases hassigned : (a.lookup nb).isSome
    · rw [if_pos hassigned]
      exact ⟨n, hn⟩
    · rw [if_neg hassigned]
      obtain ⟨ij, ho⟩ := Option.isSome_iff_exists.mp hnbo
      obtain ⟨i, j⟩ := ij
      rw [ho]
      dsimp only
      obtain ⟨hi, hj⟩ := hov var nb i j ho
      have hi2 : i < wx.length := hwx ▸ hi
      obtain ⟨c, hc⟩ := countElim_isSome hi2
        (fun wy hwy => by rw [hlen nb hnbv wy hwy]; exact hj)
      rw [hc]
      simp only [Option.bind_eq_bind, Option.some_bind, hn]
      exact ⟨_, rfl⟩

theorem buildScores_isSome {p : Puzzle} {d : Dom} {a : Assn} {var : Var}
    (hov : ∀ x y i j, p.overlaps x y = some (i, j) → i < x.length ∧ j < y.length)
    (hlen : lenInv p d) (hvar : var ∈ p.vars) :
    ∀ {xs : List Word}, (∀ w ∈ xs, w ∈ d var) →
      ∃ s, buildScores p d a var xs = some s := by
  intro xs
  induction xs with
  | nil => intro _; exact ⟨[], rfl⟩
  | cons wx rest ih =>
    intro hxs
    obtain ⟨s, hs⟩ := ih (fun w hw => hxs w (List.mem_cons_of_mem _ hw))
    have hwx : wx.length = var.length :=
      hlen var hvar wx (hxs wx (List.mem_cons_self _ _))
    obtain ⟨n, hn⟩ := elimOverNeighbors_isSome hov hlen hwx (fun nb hnb => hnb)
    rw [buildScores, hn]
    simp only [Option.bind_eq_bind, Option.some_bind, hs]
    exact ⟨_, rfl⟩

theorem orderDomainValues_isSome {p : Puzzle} {d : Dom} {var : Var} {a : Assn}
    (hov : ∀ x y i j, p.overlaps x y = some (i, j) → i < x.length ∧ j < y.length)
    (hlen : lenInv p d) (hvar : var ∈ p.vars) :
    ∃ vals, orderDomainValues p d var a = some vals := by
  obtain ⟨s, hs⟩ := buildScores_isSome hov hlen hvar (fun w hw => hw)
  rw [orderDomainValues, hs]
  exact ⟨_, rfl⟩

theorem checkNeighbors_isSome {p : Puzzle} {a : Assn} {v : Var} {w : Word}
    (hov : ∀ x y i j, p.overlaps x y = some (i, j) → i < x.length ∧ j < y.length)
    (hw : w.length = v.length)
    (hassn : ∀ e ∈ a, (e.2 : Word).length = e.1.length) :
    ∀ {nbs : List Var}, (∀ nb ∈ nbs, nb ∈ neighbors p v) →
      ∃ b, checkNeighbors p a v w nbs = some b := by
  intro nbs
  induction nbs with
  | nil => intro _; exact ⟨true, rfl⟩
  | cons nb rest ih =>
    intro hnbs
    obtain ⟨b, hb⟩ := ih (fun z hz => hnbs z (List.mem_cons_of_mem _ hz))
    have hnb := hnbs nb (List.mem_cons_self _ _)
    obtain ⟨hnbv, hnbne, hnbo⟩ := mem_neighbors.mp hnb
    rw [checkNeighbors]
    cases hlk : a.lookup nb with
    | none => exact ⟨b, hb⟩
    | some nw =>
      obtain ⟨ij, ho⟩ := Option.isSome_iff_exists.mp hnbo
      obtain ⟨i, j⟩ := ij
      rw [ho]
      dsimp only
      obtain ⟨hi, hj⟩ := hov v nb i j ho
      obtain ⟨cv, hcv⟩ : ∃ c, w[i]? = some c := by
        cases h2 : w[i]?
        · exact absurd (List.getElem?_eq_none_iff.mp h2) (Nat.not_le.mpr (hw ▸ hi))
        · exact ⟨_, rfl⟩
      have hnw : nw.length = nb.length := hassn (nb, nw) (assnLookup_mem hlk)
      obtain ⟨cn, hcn⟩ : ∃ c, nw[j]? = some c := by
        cases h2 : nw[j]?
        · exact absurd (List.getElem?_eq_none_iff.mp h2) (Nat.not_le.mpr (hnw ▸ hj))
        · exact ⟨_, rfl⟩
      rw [hcv, hcn]
      simp only [Option.bind_eq_bind, Option.some_bind]
      by_cases hcc : (cv == cn) = true
      · rw [if_pos hcc]
        exact ⟨b, hb⟩
      · rw [if_neg hcc]
        exact ⟨false, rfl⟩

theorem checkVars_isSome {p : Puzzle} {a : Assn}
    (hov : ∀ x y i j, p.overlaps x y = some (i, j) → i < x.length ∧ j < y.length)
    (hassn : ∀ e ∈ a, (e.2 : Word).length = e.1.length) :
    ∀ {es : List (Var × Word)}, (∀ e ∈ es, e ∈ a) →
      ∃ b, checkVars p a es = some b := by
  intro es
  induction es with
  | nil => intro _; exact ⟨true, rfl⟩
  | cons e rest ih =>
    intro hes
    obtain ⟨v, w⟩ := e
    obtain ⟨b, hb⟩ := ih (fun z hz => hes z (List.mem_cons_of_mem _ hz))
    rw [checkVars]
    by_cases hlen2 : v.length ≠ w.length
    · rw [if_pos hlen2]
      exact ⟨false, rfl⟩
    · rw [if_neg hlen2]
      have hw : w.length = v.length := (not_ne_iff.mp hlen2).symm
      obtain ⟨bn, hbn⟩ := checkNeighbors_isSome hov hw hassn
        (fun nb (hnb : nb ∈ neighbors p v) => hnb)
      rw [hbn]
      simp only [Option.bind_eq_bind, Option.some_bind]
      cases bn
      · rw [if_neg Bool.false_ne_true]
        exact ⟨false, rfl⟩
      · rw [if_pos rfl]
        exact ⟨b, hb⟩

theorem consistent_isSome {p : Puzzle} {a : Assn}
    (hov : ∀ x y i j, p.overlaps x y = some (i, j) → i < x.length ∧ j < y.length)
    (hassn : ∀ e ∈ a, (e.2 : Word).length = e.1.length) :
    ∃ b, consistent p a = some b := by
  rw [consistent]
  by_cases hnd : (a.map Prod.snd).Nodup
  · rw [if_pos hnd]
    exact checkVars_isSome hov hassn (fun e he => he)
  · rw [if_neg hnd]
    exact ⟨false, rfl⟩

theorem checkNeighbors_true {p : Puzzle} {a : Assn} {v : Var} {w : Word} :
    ∀ {nbs : List Var}, checkNeighbors p a v w nbs = some true →
      ∀ nb ∈ nbs, ∀ nw, a.lookup nb = some nw →
        ∀ i j, p.overlaps v nb = some (i, j) → w[i]? = nw[j]? := by
  intro nbs
  induction nbs with
  | nil => intro _ nb hnb; cases hnb
  | cons nb0 rest ih =>
    intro h nb hnb nw hnw i j ho
    rw [checkNeighbors] at h
    rcases List.mem_cons.mp hnb with rfl | hnb2
    · rw [hnw, ho] at h
      dsimp only at h
      cases hcv : w[i]? with
      | none => rw [hcv] at h; simp at h
      | some cv =>
        cases hcn : nw[j]? with
        | none => rw [hcv, hcn] at h; simp at h
        | some cn =>
          rw [hcv, hcn] at h
          simp only [Option.bind_eq_bind, Option.some_bind] at h
          by_cases hcc : (cv == cn) = true
          · exact congrArg some (beq_iff_eq.mp hcc)
          · rw [if_neg hcc] at h
            simp at h
    · cases hlk : a.lookup nb0 with
      | none =>
        rw [hlk] at h
        exact ih h nb hnb2 nw hnw i j ho
      | some nw0 =>
        rw [hlk] at h
        cases ho0 : p.overlaps v nb0 with
        | none => rw [ho0] at h; simp at h
        | some ij0 =>
          obtain ⟨i0, j0⟩ := ij0
          rw [ho0] at h
          dsimp only at h
          cases hcv : w[i0]? with
          | none => rw [hcv] at h; simp at h
          | some cv =>
            cases hcn : nw0[j0]? with
            | none => rw [hcv, hcn] at h; simp at h
            | some cn =>
              rw [hcv, hcn] at h
              simp only [Option.bind_eq_bind, Option.some_bind] at h
              by_cases hcc : (cv == cn) = true
              · rw [if_pos hcc] at h
                exact ih h nb hnb2 nw hnw i j ho
              · rw [if_neg hcc] at h
                simp at h

theorem checkVars_true {p : Puzzle} {a : Assn} :
    ∀ {es : List (Var × Word)}, checkVars p a es = some true →
      ∀ e ∈ es, (e.2 : Word).length = e.1.length ∧
        checkNeighbors p a e.1 e.2 (neighbors p e.1) = some true := by
  intro es
  induction es with
  | nil => intro _ e he; cases he
  | cons e0 rest ih =>
    intro h e he
    obtain ⟨v, w⟩ := e0
    rw [checkVars] at h
    by_cases hlen2 : v.length ≠ w.length
    · rw [if_pos hlen2] at h
      simp at h
    · rw [if_neg hlen2] at h
      cases hcn : checkNeighbors p a v w (neighbors p v) with
      | none => rw [hcn] at h; simp at h
      | some bn =>
        rw [hcn] at h
        simp only [Option.bind_eq_bind, Option.some_bind] at h
        cases bn
        · rw [if_neg Bool.false_ne_true] at h
          simp at h
        · rw [if_pos rfl] at h
          rcases List.mem_cons.mp he with rfl | he2
          · exact ⟨(not_ne_iff.mp hlen2).symm, hcn⟩
          · exact ih h e he2

theorem consistent_true_parts {p : Puzzle} {a : Assn}
    (h : consistent p a = some true) :
    (a.map Prod.snd).Nodup ∧ checkVars p a a = some true := by
  rw [consistent] at h
  by_cases hnd : (a.map Prod.snd).Nodup
  · rw [if_pos hnd] at h
    exact ⟨hnd, h⟩
  · rw [if_neg hnd] at h
    simp at h

theorem filter_length_le {f g : Var → Bool} (himp : ∀ v, g v = true → f v = true) :
    ∀ l : List Var, (l.filter g).length ≤ (l.filter f).length := by
  intro l
  induction l with
  | nil => exact le_refl _
  | cons y t ih =>
    rw [List.filter_cons, List.filter_cons]
    cases hg : g y
    · rw [if_neg Bool.false_ne_true]
      cases hf : f y
      · rw [if_neg Bool.false_ne_true]
        exact ih
      · rw [if_pos rfl]
        simp only [List.length_cons]
        omega
    · rw [himp y hg, if_pos rfl, if_pos rfl]
      simp only [List.length_cons]
      omega

theorem filter_length_lt {f g : Var → Bool} :
    ∀ {l : List Var} {x : Var}, (∀ v, g v = true → f v = true) → x ∈ l →
      f x = true → g x = false →
      (l.filter g).length < (l.filter f).length := by
  intro l
  induction l with
  | nil => intro x _ hx; cases hx
  | cons y t ih =>
    intro x himp hx hfx hgx
    rw [List.filter_cons, List.filter_cons]
    rcases List.mem_cons.mp hx with rfl | hx2
    · rw [hgx, hfx, if_neg Bool.false_ne_true, if_pos rfl]
      simp only [List.length_cons]
      exact Nat.lt_succ_of_le (filter_length_le himp t)
    · cases hg : g y
      · rw [if_neg Bool.false_ne_true]
        cases hf : f y
        · rw [if_neg Bool.false_ne_true]
          exact ih himp hx2 hfx hgx
        · rw [if_pos rfl]
          simp only [List.length_cons]
          exact Nat.lt_succ_of_lt (ih himp hx2 hfx hgx)
      · rw [himp y hg, if_pos rfl, if_pos rfl]
        simp only [List.length_cons]
        exact Nat.succ_lt_succ (ih himp hx2 hfx hgx)

theorem countUnassigned_append_lt {p : Puzzle} {a : Assn} {x : Var} {w : Word}
    (hx : x ∈ p.vars) (hun : a.lookup x = none) :
    countUnassigned p (a ++ [(x, w)]) < countUnassigned p a := by
  rw [countUnassigned, countUnassigned]
  refine filter_length_lt ?_ hx ?_ ?_
  · intro v hv
    by_cases hvx : v = x
    · subst hvx
      rw [assnLookup_append_self hun] at hv
      simp at hv
    · rw [assnLookup_append_ne w hvx] at hv
      exact hv
  · rw [hun]
    rfl
  · rw [assnLookup_append_self hun]
    rfl

theorem tryValues_restores {p : Puzzle} {bt : Assn → Option (Option Assn × Assn)}
    {var : Var}
    (hbt : ∀ a1 r s, bt a1 = some (r, s) → r = none → s = a1) :
    ∀ {vals : List Word} {a s : Assn}, a.lookup var = none →
      tryValues p bt var vals a = some (none, s) → s = a := by
  intro vals
  induction vals with
  | nil =>
    intro a s _ h
    rw [tryValues] at h
    simp at h
    exact h.symm
  | cons val rest ih =>
    intro a s hun h
    rw [tryValues] at h
    cases hc : consistent p (a ++ [(var, val)]) with
    | none => rw [hc] at h; simp at h
    | some c =>
      rw [hc] at h
      simp only [Option.bind_eq_bind, Option.some_bind] at h
      cases c
      · rw [if_neg Bool.false_ne_true] at h
        rw [eraseKey_append_fresh hun] at h
        exact ih hun h
      · rw [if_pos rfl] at h
        cases hb : bt (a ++ [(var, val)]) with
        | none => rw [hb] at h; simp at h
        | some rs =>
          obtain ⟨r, s1⟩ := rs
          rw [hb] at h
          simp only [Option.bind_eq_bind, Option.some_bind] at h
          cases r with
          | some r0 => simp at h
          | none =>
            dsimp only at h
            have hs1 : s1 = a ++ [(var, val)] := hbt _ _ _ hb rfl
            rw [hs1, eraseKey_append_fresh hun] at h
            exact ih hun h

theorem backtrackF_restores {p : Puzzle} {d : Dom} :
    ∀ {fuel : Nat} {a : Assn} {r : Option Assn} {s : Assn},
      backtrackF p d fuel a = some (r, s) → r = none → s = a := by
  intro fuel
  induction fuel with
  | zero => intro a r s h; simp [backtrackF] at h
  | succ fuel ih =>
    intro a r s h hr
    subst hr
    rw [backtrackF] at h
    by_cases hcomp : assignmentComplete p a = true
    · rw [if_pos hcomp] at h
      simp at h
    · rw [if_neg hcomp] at h
      cases hsel : selectUnassigned p d a with
      | none => rw [hsel] at h; simp at h
      | some var =>
        rw [hsel] at h
        dsimp only at h
        cases hodv : orderDomainValues p d var a with
        | none => rw [hodv] at h; simp at h
        | some vals =>
          rw [hodv] at h
          simp only [Option.bind_eq_bind, Option.some_bind] at h
          exact tryValues_restores (fun a1 r1 s1 hb hr1 => ih hb hr1)
            (selectUnassigned_mem hsel).2 h

theorem backtrackF_empty_domain {p : Puzzle} {d : Dom} {v : Var}
    (hv : v ∈ p.vars) (hdv : d v = []) (fuel : Nat) :
    backtrackF p d (fuel + 1) [] = some (none, []) := by
  rw [backtrackF]
  have hcomp : assignmentComplete p [] = false := by
    rw [assignmentComplete]
    refine List.all_eq_false.mpr ⟨v, hv, ?_⟩
    intro hcc
    simp [List.lookup] at hcc
  rw [hcomp, if_neg Bool.false_ne_true]
  obtain ⟨var, hsel⟩ := selectUnassigned_isSome (a := ([] : Assn)) hv rfl
  rw [hsel]
  dsimp only
  have hmin := selectUnassigned_min hsel v hv rfl
  rw [hdv] at hmin
  have hvar_empty : d var = [] := by
    refine List.length_eq_zero.mp ?_
    simpa using hmin
  rw [orderDomainValues_empty hvar_empty]
  simp only [Option.bind_eq_bind, Option.some_bind]
  rw [tryValues]

theorem tryValues_isSome {p : Puzzle} {bt : Assn → Option (Option Assn × Assn)}
    {var : Var}
    (hov : ∀ x y i j, p.overlaps x y = some (i, j) → i < x.length ∧ j < y.length)
    (hvar : var ∈ p.vars)
    (hrestores : ∀ a1 r1 s1, bt a1 = some (r1, s1) → r1 = none → s1 = a1) :
    ∀ {vals : List Word} {a : Assn},
      a.lookup var = none → assnInv p a →
      (∀ w ∈ vals, (w : Word).length = var.length) →
      (∀ w ∈ vals, ∃ out, bt (a ++ [(var, w)]) = some out) →
      ∃ out, tryValues p bt var vals a = some out := by
  intro vals
  induction vals with
  | nil => intro a _ _ _ _; exact ⟨(none, a), rfl⟩
  | cons val rest ih =>
    intro a hun hinv hvals hbt
    have hinv1 : assnInv p (a ++ [(var, val)]) := by
      intro e he
      rcases List.mem_append.mp he with he | he
      · exact hinv e he
      · simp at he
        rw [he]
        exact ⟨hvar, hvals val (List.mem_cons_self _ _)⟩
    obtain ⟨c, hc⟩ := consistent_isSome hov (fun e he => (hinv1 e he).2)
    rw [tryValues, hc]
    simp only [Option.bind_eq_bind, Option.some_bind]
    cases c
    · rw [if_neg Bool.false_ne_true, eraseKey_append_fresh hun]
      exact ih hun hinv (fun w hw => hvals w (List.mem_cons_of_mem _ hw))
        (fun w hw => hbt w (List.mem_cons_of_mem _ hw))
    · rw [if_pos rfl]
      obtain ⟨out, hout⟩ := hbt val (List.mem_cons_self _ _)
      obtain ⟨r1, s1⟩ := out
      rw [hout]
      simp only [Option.bind_eq_bind, Option.some_bind]
      cases r1 with
      | some r0 => exact ⟨(some r0, s1), rfl⟩
      | none =>
        dsimp only
        rw [hrestores _ _ _ hout rfl, eraseKey_append_fresh hun]
        exact ih hun hinv (fun w hw => hvals w (List.mem_cons_of_mem _ hw))
          (fun w hw => hbt w (List.mem_cons_of_mem _ hw))

theorem backtrackF_isSome {p : Puzzle} {d : Dom}
    (hov : ∀ x y i j, p.overlaps x y = some (i, j) → i < x.length ∧ j < y.length)
    (hlen : lenInv p d) :
    ∀ {fuel : Nat} {a : Assn},
      assnInv p a → countUnassigned p a < fuel →
      ∃ out, backtrackF p d fuel a = some out := by
  intro fuel
  induction fuel with
  | zero => intro a _ hf; omega
  | succ fuel ih =>
    intro a hinv hf
    rw [backtrackF]
    by_cases hcomp : assignmentComplete p a = true
    · rw [if_pos hcomp]
      exact ⟨(some a, a), rfl⟩
    · rw [if_neg hcomp]
      have hcomp2 : assignmentComplete p a = false := by
        cases h2 : assignmentComplete p a
        · rfl
        · exact absurd h2 hcomp
      rw [assignmentComplete] at hcomp2
      obtain ⟨v0, hv0, hv0un⟩ := List.all_eq_false.mp hcomp2
      have hv0none : a.lookup v0 = none := by
        cases h2 : a.lookup v0
        · rfl
        · rw [h2] at hv0un
          simp at hv0un
      obtain ⟨var, hsel⟩ := selectUnassigned_isSome hv0 hv0none
      rw [hsel]
      dsimp only
      obtain ⟨hvarv, hvarun⟩ := selectUnassigned_mem hsel
      obtain ⟨vals, hodv⟩ := orderDomainValues_isSome (a := a) hov hlen hvarv
      rw [hodv]
      simp only [Option.bind_eq_bind, Option.some_bind]
      have hvals_mem : ∀ w ∈ vals, w ∈ d var :=
        fun w hw => (orderDomainValues_perm hodv).subset hw
      refine tryValues_isSome hov hvarv
        (fun a1 r1 s1 hb hr1 => backtrackF_restores hb hr1) hvarun hinv
        (fun w hw => hlen var hvarv w (hvals_mem w hw)) ?_
      intro w hw
      refine ih ?_ ?_
      · intro e he
        rcases List.mem_append.mp he with he | he
        · exact hinv e he
        · simp at he
          rw [he]
          exact ⟨hvarv, hlen var hvarv w (hvals_mem w hw)⟩
      · have hlt := countUnassigned_append_lt (a := a) (w := w) hvarv hvarun
        omega

theorem keys_nodup_append {a : Assn} {var : Var} {val : Word}
    (hnd : (a.map Prod.fst).Nodup) (hun : a.lookup var = none) :
    ((a ++ [(var, val)]).map Prod.fst).Nodup := by
  rw [List.map_append]
  refine List.Nodup.append hnd (List.nodup_singleton _) ?_
  intro k hk hk2
  simp at hk2
  subst hk2
  obtain ⟨e, he, hek⟩ := List.mem_map.mp hk
  exact assnLookup_none_iff.mp hun e he hek

theorem tryValues_success {p : Puzzle} {bt : Assn → Option (Option Assn × Assn)}
    {var : Var} (hvar : var ∈ p.vars)
    (hrestores : ∀ a1 r1 s1, bt a1 = some (r1, s1) → r1 = none → s1 = a1)
    (hsucc : ∀ a1 r1 s1, bt a1 = some (some r1, s1) →
      (a1.map Prod.fst).Nodup → assnInv p a1 →
      assignmentComplete p r1 = true ∧ (r1.map Prod.fst).Nodup ∧ assnInv p r1 ∧
        (r1 = a1 ∨ consistent p r1 = some true)) :
    ∀ {vals : List Word} {a : Assn} {r s : Assn},
      (∀ w ∈ vals, (w : Word).length = var.length) →
      a.lookup var = none →
      (a.map Prod.fst).Nodup → assnInv p a →
      tryValues p bt var vals a = some (some r, s) →
      assignmentComplete p r = true ∧ (r.map Prod.fst).Nodup ∧ assnInv p r ∧
        consistent p r = some true := by
  intro vals
  induction vals with
  | nil =>
    intro a r s _ _ _ _ h
    rw [tryValues] at h
    simp at h
  | cons val rest ih =>
    intro a r s hvals hun hnd hinv h
    rw [tryValues] at h
    cases hc : consistent p (a ++ [(var, val)]) with
    | none => rw [hc] at h; simp at h
    | some c =>
      rw [hc] at h
      simp only [Option.bind_eq_bind, Option.some_bind] at h
      cases c
      · rw [if_neg Bool.false_ne_true, eraseKey_append_fresh hun] at h
        exact ih (fun w hw => hvals w (List.mem_cons_of_mem _ hw)) hun hnd hinv h
      · rw [if_pos rfl] at h
        cases hb : bt (a ++ [(var, val)]) with
        | none => rw [hb] at h; simp at h
        | some rs =>
          obtain ⟨r1, s1⟩ := rs
          rw [hb] at h
          simp only [Option.bind_eq_bind, Option.some_bind] at h
          cases r1 with
          | some r0 =>
            dsimp only at h
            simp only [Option.pure_def, Option.some.injEq, Prod.mk.injEq] at h
            obtain ⟨hr0, hs1⟩ := h
            have hnd1 : ((a ++ [(var, val)]).map Prod.fst).Nodup :=
              keys_nodup_append hnd hun
            have hinv1 : assnInv p (a ++ [(var, val)]) := by
              intro e he
              rcases List.mem_append.mp he with he | he
              · exact hinv e he
              · simp at he
                rw [he]
                exact ⟨hvar, hvals val (List.mem_cons_self _ _)⟩
            obtain ⟨hcomp, hnd2, hinv2, hdisj⟩ := hsucc _ _ _ hb hnd1 hinv1
            refine ⟨hr0 ▸ hcomp, hr0 ▸ hnd2, hr0 ▸ hinv2, ?_⟩
            rcases hdisj with heq | hcons
            · rw [hr0] at heq
              rw [heq]
              exact hc
            · exact hr0 ▸ hcons
          | none =>
            dsimp only at h
            rw [hrestores _ _ _ hb rfl, eraseKey_append_fresh hun] at h
            exact ih (fun w hw => hvals w (List.mem_cons_of_mem _ hw)) hun hnd hinv h

theorem backtrackF_success {p : Puzzle} {d : Dom} (hlen : lenInv p d) :
    ∀ {fuel : Nat} {a r s : Assn},
      backtrackF p d fuel a = some (some r, s) →
      (a.map Prod.fst).Nodup → assnInv p a →
      assignmentComplete p r = true ∧ (r.map Prod.fst).Nodup ∧ assnInv p r ∧
        (r = a ∨ consistent p r = some true) := by
  intro fuel
  induction fuel with
  | zero => intro a r s h; simp [backtrackF] at h
  | succ fuel ih =>
    intro a r s h hnd hinv
    rw [backtrackF] at h
    by_cases hcomp : assignmentComplete p a = true
    · rw [if_pos hcomp] at h
      simp only [Option.some.injEq, Prod.mk.injEq] at h
      obtain ⟨hra, _⟩ := h
      exact ⟨hra ▸ hcomp, hra ▸ hnd, hra ▸ hinv, Or.inl hra.symm⟩
    · rw [if_neg hcomp] at h
      cases hsel : selectUnassigned p d a with
      | none => rw [hsel] at h; simp at h
      | some var =>
        rw [hsel] at h
        dsimp only at h
        cases hodv : orderDomainValues p d var a with
        | none => rw [hodv] at h; simp at h
        | some vals =>
          rw [hodv] at h
          simp only [Option.bind_eq_bind, Option.some_bind] at h
          obtain ⟨hvarv, hvarun⟩ := selectUnassigned_mem hsel
          have hvals : ∀ w ∈ vals, (w : Word).length = var.length := fun w hw =>
            hlen var hvarv w ((orderDomainValues_perm hodv).subset hw)
          obtain ⟨h1, h2, h3, h4⟩ := tryValues_success hvarv
            (fun a1 r1 s1 hb hr1 => backtrackF_restores hb hr1)
            (fun a1 r1 s1 hb hnd1 hinv1 => ih hb hnd1 hinv1)
            hvals hvarun hnd hinv h
          exact ⟨h1, h2, h3, Or.inr h4⟩

theorem enforceNodeConsistency_lenInv (p : Puzzle) (d : Dom) :
    lenInv p (enforceNodeConsistency d) := by
  intro v hv w hw
  rw [enforceNodeConsistency] at hw
  exact beq_iff_eq.mp (List.mem_filter.mp hw).2

theorem countUnassigned_nil_lt (p : Puzzle) :
    countUnassigned p ([] : Assn) < p.vars.length + 1 := by
  rw [countUnassigned]
  have := List.length_filter_le (fun v => !((([] : Assn).lookup v).isSome)) p.vars
  omega

theorem assnInv_nil (p : Puzzle) : assnInv p ([] : Assn) := by
  intro e he
  cases he

theorem solve_isSome {p : Puzzle} (hp : p.wellFormed) : (solve p).isSome := by
  obtain ⟨hne, hndv, hndw, hov, hsym⟩ := hp
  have hlen0 := enforceNodeConsistency_lenInv p (initDomains p)
  obtain ⟨⟨d1, b⟩, hac3⟩ := ac3_none_isSome hov hlen0
  have hlen1 : lenInv p d1 := fun v hv w hw =>
    hlen0 v hv w ((ac3_sublist hac3 v).subset hw)
  obtain ⟨⟨r, s⟩, hbt⟩ :=
    backtrackF_isSome hov hlen1 (assnInv_nil p) (countUnassigned_nil_lt p)
  rw [solve, hac3]
  simp only [Option.bind_eq_bind, Option.some_bind]
  rw [hbt]
  simp only [Option.bind_eq_bind, Option.some_bind]
  rfl

theorem solve_none_of_failure {p : Puzzle} (hp : p.wellFormed)
    (hfail : (∃ d1, ac3 p (enforceNodeConsistency (initDomains p)) none = some (d1, false)) ∨
      (∃ v ∈ p.vars, enforceNodeConsistency (initDomains p) v = [])) :
    solve p = some none := by
  obtain ⟨hne, hndv, hndw, hov, hsym⟩ := hp
  have hlen0 := enforceNodeConsistency_lenInv p (initDomains p)
  obtain ⟨⟨d1, b⟩, hac3⟩ := ac3_none_isSome hov hlen0
  have hempty : ∃ x ∈ p.vars, d1 x = [] := by
    rcases hfail with ⟨d1x, hfx⟩ | ⟨v, hv, hncv⟩
    · rw [hac3] at hfx
      have hd : d1x = d1 ∧ false = b := by
        have := Option.some.injEq .. ▸ hfx
        exact ⟨(Prod.mk.injEq .. ▸ this).1.symm, (Prod.mk.injEq .. ▸ this).2.symm⟩
      obtain ⟨h1, h2⟩ := hd
      exact ac3_none_false (h1 ▸ h2 ▸ hac3 : ac3 p _ none = some (d1x, false))
        |>.imp (fun x hx => ⟨hx.1, h1 ▸ hx.2⟩)
    · refine ⟨v, hv, ?_⟩
      have := ac3_sublist hac3 v
      rw [hncv] at this
      exact List.sublist_nil.mp this
  obtain ⟨x, hx, hdx⟩ := hempty
  have hbt := backtrackF_empty_domain (d := d1) hx hdx p.vars.length
  rw [solve, hac3]
  simp only [Option.bind_eq_bind, Option.some_bind]
  rw [hbt]
  rfl

theorem countElim_perm {i j : Nat} {wx : Word} :
    ∀ {ys ys2 : List Word}, List.Perm ys ys2 →
      countElim i j wx ys = countElim i j wx ys2 := by
  intro ys ys2 hperm
  induction hperm with
  | nil => rfl
  | cons x t ih => rw [countElim, countElim, ih]
  | swap x y l =>
    cases ha : wx[i]?
    · simp [countElim, ha]
    · cases hx : x[j]?
      · cases hy : y[j]?
        · simp [countElim, ha, hx, hy]
        · simp [countElim, ha, hx, hy]
      · cases hy : y[j]?
        · simp [countElim, ha, hx, hy]
        · cases hn : countElim i j wx l
          · simp [countElim, ha, hx, hy, hn]
          · simp [countElim, ha, hx, hy, hn]
            split_ifs <;> omega
  | trans h1 h2 ih1 ih2 => rw [ih1, ih2]

theorem elimOverNeighbors_congr {p : Puzzle} {d d2 : Dom} {a : Assn} {var : Var} {wx : Word}
    (hperm : ∀ v, List.Perm (d v) (d2 v)) :
    ∀ nbs, elimOverNeighbors p d a var wx nbs = elimOverNeighbors p d2 a var wx nbs := by
  intro nbs
  induction nbs with
  | nil => rfl
  | cons nb rest ih =>
    rw [elimOverNeighbors, elimOverNeighbors]
    by_cases hassigned : (a.lookup nb).isSome
    · rw [if_pos hassigned, if_pos hassigned, ih]
    · rw [if_neg hassigned, if_neg hassigned]
      cases ho : p.overlaps var nb with
      | none => rfl
      | some ij =>
        obtain ⟨i, j⟩ := ij
        dsimp only
        rw [countElim_perm (hperm nb), ih]

theorem buildScores_congr {p : Puzzle} {d d2 : Dom} {a : Assn} {var : Var}
    (hperm : ∀ v, List.Perm (d v) (d2 v)) :
    ∀ xs, buildScores p d a var xs = buildScores p d2 a var xs := by
  intro xs
  induction xs with
  | nil => rfl
  | cons wx rest ih =>
    rw [buildScores, buildScores, elimOverNeighbors_congr hperm, ih]

theorem buildScores_perm {p : Puzzle} {d : Dom} {a : Assn} {var : Var} :
    ∀ {xs xs2 : List Word}, List.Perm xs xs2 → ∀ {s : List (Nat × Word)},
      buildScores p d a var xs = some s →
      ∃ s2, buildScores p d a var xs2 = some s2 ∧ List.Perm s s2 := by
  intro xs xs2 hperm
  induction hperm with
  | nil => intro s h; exact ⟨s, h, List.Perm.refl s⟩
  | cons x t ih =>
    rename_i l1 l2
    intro s h
    rw [buildScores] at h
    cases he : elimOverNeighbors p d a var x (neighbors p var) with
    | none => rw [he] at h; simp at h
    | some c =>
      rw [he] at h
      cases hb : buildScores p d a var l1 with
      | none => rw [hb] at h; simp at h
      | some s1 =>
        rw [hb] at h
        simp at h
        obtain ⟨s2, hb2, hs2⟩ := ih hb
        refine ⟨(c, x) :: s2, ?_, ?_⟩
        · rw [buildScores, he, hb2]
          rfl
        · rw [← h]
          exact hs2.cons (c, x)
  | swap x y l =>
    intro s h
    rw [buildScores] at h
    cases hey : elimOverNeighbors p d a var y (neighbors p var) with
    | none => rw [hey] at h; simp at h
    | some cy =>
      rw [hey] at h
      cases hbx : buildScores p d a var (x :: l) with
      | none => rw [hbx] at h; simp at h
      | some sx =>
        rw [hbx] at h
        simp at h
        rw [buildScores] at hbx
        cases hex : elimOverNeighbors p d a var x (neighbors p var) with
        | none => rw [hex] at hbx; simp at hbx
        | some cx =>
          rw [hex] at hbx
          cases hbl : buildScores p d a var l with
          | none => rw [hbl] at hbx; simp at hbx
          | some sl =>
            rw [hbl] at hbx
            simp at hbx
            refine ⟨(cx, x) :: (cy, y) :: sl, ?_, ?_⟩
            · rw [buildScores, hex]
              simp only [Option.bind_eq_bind, Option.some_bind]
              rw [buildScores, hey]
              simp only [Option.bind_eq_bind, Option.some_bind]
              rw [hbl]
              rfl
            · rw [← h, ← hbx]
              exact List.Perm.swap (cx, x) (cy, y) sl
  | trans h1 h2 ih1 ih2 =>
    intro s h
    obtain ⟨s2, hb2, hs2⟩ := ih1 h
    obtain ⟨s3, hb3, hs3⟩ := ih2 hb2
    exact ⟨s3, hb3, hs2.trans hs3⟩

theorem orderDomainValues_congr {p : Puzzle} {d d2 : Dom} {var : Var} {a : Assn}
    {out : List Word} (hperm : ∀ v, List.Perm (d v) (d2 v))
    (h : orderDomainValues p d var a = some out) :
    orderDomainValues p d2 var a = some out := by
  rw [orderDomainValues] at h ⊢
  cases hb : buildScores p d a var (d var) with
  | none => rw [hb] at h; simp at h
  | some s =>
    rw [hb] at h
    simp at h
    have hb2 : buildScores p d2 a var (d var) = some s := by
      rw [← buildScores_congr hperm]
      exact hb
    obtain ⟨s2, hb3, hs2⟩ := buildScores_perm (d := d2) (hperm var) hb2
    rw [hb3]
    simp only [Option.bind_eq_bind, Option.some_bind]
    have hsort : List.insertionSort scoreLe s2 = List.insertionSort scoreLe s := by
      refine List.eq_of_perm_of_sorted ?_ (List.sorted_insertionSort _ _)
        (List.sorted_insertionSort _ _)
      exact (List.perm_insertionSort _ _).trans
        (hs2.symm.trans (List.perm_insertionSort scoreLe s).symm)
    rw [hsort, h]
    rfl

/-- A solvable one-slot puzzle: one slot of length 1, word list `["A"]`,
no overlaps. -/
def vW : Var := ⟨0, 0, false, 1⟩

def pW : Puzzle := ⟨[vW], fun _ _ => none, [['A']]⟩

theorem pW_wellFormed : pW.wellFormed := by
  refine ⟨by decide, by decide, by decide, ?_, ?_⟩
  · intro x y i j h
    simp [pW] at h
  · intro x y i j h
    simp [pW] at h

/-- A puzzle on which `ac3` reports failure: a length-1 slot crossing a
length-2 slot at index pair `(0, 1)`, words `["A", "XB"]`; the crossing
characters `'A'` and `'B'` differ, so the first slot's domain is emptied. -/
def aV : Var := ⟨0, 0, false, 1⟩

def bV : Var := ⟨0, 0, true, 2⟩

def pCE : Puzzle :=
  ⟨[aV, bV],
   fun x y =>
     if x = aV ∧ y = bV then some (0, 1)
     else if x = bV ∧ y = aV then some (1, 0)
     else none,
   [['A'], ['X', 'B']]⟩

theorem pCE_wellFormed : pCE.wellFormed := by
  refine ⟨by decide, by decide, by decide, ?_, ?_⟩
  · intro x y i j h
    simp only [pCE] at h
    split_ifs at h with h1 h2
    · obtain ⟨rfl, rfl⟩ := h1
      simp at h
      obtain ⟨rfl, rfl⟩ := h
      exact ⟨by decide, by decide⟩
    · obtain ⟨rfl, rfl⟩ := h2
      simp at h
      obtain ⟨rfl, rfl⟩ := h
      exact ⟨by decide, by decide⟩
  · intro x y i j h
    simp only [pCE] at h
    split_ifs at h with h1 h2
    · obtain ⟨rfl, rfl⟩ := h1
      simp at h
      obtain ⟨rfl, rfl⟩ := h
      decide
    · obtain ⟨rfl, rfl⟩ := h2
      simp at h
      obtain ⟨rfl, rfl⟩ := h
      decide

/-- A puzzle with an isolated slot whose domain is emptied by node
consistency: one slot of length 1, but the only word has length 2. -/
def vI : Var := ⟨0, 0, false, 1⟩

def pI : Puzzle := ⟨[vI], fun _ _ => none, [['B', 'B']]⟩

theorem pI_wellFormed : pI.wellFormed := by
  refine ⟨by decide, by decide, by decide, ?_, ?_⟩
  · intro x y i j h
    simp [pI] at h
  · intro x y i j h
    simp [pI] at h

/-- A two-slot puzzle with no overlaps where the second slot's domain is
empty after node consistency, used to exercise a failing `backtrack` call
from a non-empty partial assignment. -/
def u9 : Var := ⟨0, 0, false, 1⟩

def v9 : Var := ⟨1, 0, false, 2⟩

def p9 : Puzzle := ⟨[u9, v9], fun _ _ => none, [['A']]⟩

def a9 : Assn := [(u9, ['A'])]

theorem p9_wellFormed : p9.wellFormed := by
  refine ⟨by decide, by decide, by decide, ?_, ?_⟩
  · intro x y i j h
    simp [p9] at h
  · intro x y i j h
    simp [p9] at h

theorem hasSupport_iff {i j : Nat} {ys : List Word} {wx : Word} :
    hasSupport i j ys wx = true ↔ ∃ wy ∈ ys, wx[i]? = wy[j]? := by
  rw [hasSupport, List.any_eq_true]
  constructor
  · rintro ⟨wy, hwy, hbeq⟩
    exact ⟨wy, hwy, beq_iff_eq.mp hbeq⟩
  · rintro ⟨wy, hwy, heq⟩
    exact ⟨wy, hwy, beq_iff_eq.mpr heq⟩

/-- C1: if `solve` returns an assignment, it is complete (every slot
variable of the puzzle is mapped to exactly one word: every variable has a
binding and the keys are distinct), all assigned words are pairwise
distinct, each word's length equals its slot's length, and every pair of
overlapping slots agrees on the characters at the recorded overlap index
pair. -/
theorem claim_C1 (p : Puzzle) (a : Assn) (hp : p.wellFormed)
    (h : solve p = some (some a)) :
    (∀ v ∈ p.vars, ∃ w, a.lookup v = some w) ∧
    (a.map Prod.fst).Nodup ∧
    (a.map Prod.snd).Nodup ∧
    (∀ e ∈ a, (e.2 : Word).length = e.1.length) ∧
    (∀ x ∈ p.vars, ∀ y ∈ p.vars, x ≠ y → ∀ i j, p.overlaps x y = some (i, j) →
      ∃ wx wy, a.lookup x = some wx ∧ a.lookup y = some wy ∧ wx[i]? = wy[j]?) := by
  obtain ⟨hne, hndv, hndw, hov, hsym⟩ := hp
  rw [solve] at h
  cases hac3 : ac3 p (enforceNodeConsistency (initDomains p)) none with
  | none => rw [hac3] at h; simp at h
  | some r1 =>
    obtain ⟨d1, b⟩ := r1
    rw [hac3] at h
    simp only [Option.bind_eq_bind, Option.some_bind] at h
    cases hbt : backtrackF p d1 (p.vars.length + 1) [] with
    | none => rw [hbt] at h; simp at h
    | some rs =>
      obtain ⟨r, st⟩ := rs
      rw [hbt] at h
      simp only [Option.bind_eq_bind, Option.some_bind] at h
      have hra : r = some a := by simpa using h
      have hlen0 := enforceNodeConsistency_lenInv p (initDomains p)
      have hlen1 : lenInv p d1 := fun v hv w hw =>
        hlen0 v hv w ((ac3_sublist hac3 v).subset hw)
      obtain ⟨hcomp, hnd, hinv, hdisj⟩ :=
        backtrackF_success hlen1 (hra ▸ hbt) (by simp) (assnInv_nil p)
      have hcons : consistent p a = some true := by
        rcases hdisj with heq | hcons
        · obtain ⟨v, hv⟩ := List.exists_mem_of_ne_nil _ hne
          have hv2 := List.all_eq_true.mp hcomp v hv
          rw [heq] at hv2
          simp [List.lookup] at hv2
        · exact hcons
      obtain ⟨hndvals, hcv⟩ := consistent_true_parts hcons
      refine ⟨?_, hnd, hndvals, ?_, ?_⟩
      · intro v hv
        exact Option.isSome_iff_exists.mp (List.all_eq_true.mp hcomp v hv)
      · intro e he
        exact (checkVars_true hcv e he).1
      · intro x hx y hy hxy i j ho
        obtain ⟨wx, hwx⟩ := Option.isSome_iff_exists.mp (List.all_eq_true.mp hcomp x hx)
        obtain ⟨wy, hwy⟩ := Option.isSome_iff_exists.mp (List.all_eq_true.mp hcomp y hy)
        refine ⟨wx, wy, hwx, hwy, ?_⟩
        have hmem : (x, wx) ∈ a := assnLookup_mem hwx
        have hcn := (checkVars_true hcv (x, wx) hmem).2
        have hyn : y ∈ neighbors p x := mem_neighbors.mpr ⟨hy, Ne.symm hxy, by rw [ho]; rfl⟩
        exact checkNeighbors_true hcn y hyn wy hwy i j ho

theorem claim_C1_witness :
    pW.wellFormed ∧ solve pW = some (some [(vW, ['A'])]) ∧
    ((∀ v ∈ pW.vars, ∃ w, ([(vW, ['A'])] : Assn).lookup v = some w) ∧
      (([(vW, ['A'])] : Assn).map Prod.fst).Nodup ∧
      (([(vW, ['A'])] : Assn).map Prod.snd).Nodup ∧
      (∀ e ∈ ([(vW, ['A'])] : Assn), (e.2 : Word).length = e.1.length) ∧
      (∀ x ∈ pW.vars, ∀ y ∈ pW.vars, x ≠ y → ∀ i j, pW.overlaps x y = some (i, j) →
        ∃ wx wy, ([(vW, ['A'])] : Assn).lookup x = some wx ∧
          ([(vW, ['A'])] : Assn).lookup y = some wy ∧ wx[i]? = wy[j]?)) :=
  ⟨pW_wellFormed, by decide, claim_C1 pW [(vW, ['A'])] pW_wellFormed (by decide)⟩

/-- C2, amended: the claim as stated is false — `solve` ignores the
boolean result of `ac3` and always invokes `backtrack` (see
`claim_C2_counterexample`).  What does hold: whenever `ac3` reports
failure, or some slot's domain is empty after node consistency, `solve`
returns `none` — because the emptied domain forces the invoked search to
exhaust immediately. -/
theorem claim_C2 (p : Puzzle) (hp : p.wellFormed)
    (hfail : (∃ d1, ac3 p (enforceNodeConsistency (initDomains p)) none = some (d1, false)) ∨
      (∃ v ∈ p.vars, enforceNodeConsistency (initDomains p) v = [])) :
    solve p = some none :=
  solve_none_of_failure hp hfail

theorem claim_C2_witness : pI.wellFormed ∧
    (∃ v ∈ pI.vars, enforceNodeConsistency (initDomains pI) v = []) ∧
    solve pI = some none :=
  ⟨pI_wellFormed, ⟨vI, by decide, by decide⟩,
    claim_C2 pI pI_wellFormed (Or.inr ⟨vI, by decide, by decide⟩)⟩

/-- C2 counterexample: on `pCE`, arc consistency reports failure, yet the
backtracking search step is invoked anyway (the flag of `solveInstr`
records the unconditional invocation of `backtrack` in `solve`) — the
claim's "without invoking the backtracking search step" is false.  The
result is still `none`. -/
theorem claim_C2_counterexample :
    (ac3 pCE (enforceNodeConsistency (initDomains pCE)) none).map Prod.snd = some false ∧
    (solveInstr pCE).map Prod.snd = some true ∧
    solve pCE = some none := by
  refine ⟨by decide, by decide, by decide⟩

/-- C3: on every well-formed puzzle description, `solve` terminates with a
defined result — an assignment or `none` — and never crashes: in the
embedding, every string-indexing and overlap-unpacking operation of
`revise`, `consistent` and `order_domain_values` is modelled in `Option`
with `none` for a crash, so `isSome` states that all of them stayed in
bounds and the fuel of both loops sufficed. -/
theorem claim_C3 (p : Puzzle) (hp : p.wellFormed) : (solve p).isSome :=
  solve_isSome hp

theorem claim_C3_witness : pCE.wellFormed ∧ (solve pCE).isSome :=
  ⟨pCE_wellFormed, claim_C3 pCE pCE_wellFormed⟩

/-- C4, amended: the claim's "no slot's domain is empty" is false on a
`true` return (see `claim_C4_counterexample`).  What does hold on a `true`
return of `ac3` with the default full queue: arc consistency is achieved —
every word remaining in any slot's domain has a compatible word in each
neighboring slot's domain — and no domain that was non-empty at entry has
been emptied (a domain can only be empty afterwards if it was already
empty before, as after node consistency). -/
theorem claim_C4 (p : Puzzle) (d d1 : Dom) (hp : p.wellFormed)
    (h : ac3 p d none = some (d1, true)) :
    (∀ x ∈ p.vars, ∀ y ∈ neighbors p x, arcCons p d1 x y) ∧
    (∀ v, d1 v = [] → d v = []) := by
  obtain ⟨_, _, _, hov, hsym⟩ := hp
  exact ⟨ac3_none_arcCons hsym h, ac3_true_nonempty h⟩

theorem claim_C4_witness :
    pW.wellFormed ∧
    ac3 pW (enforceNodeConsistency (initDomains pW)) none =
      some (enforceNodeConsistency (initDomains pW), true) ∧
    ((∀ x ∈ pW.vars, ∀ y ∈ neighbors pW x,
        arcCons pW (enforceNodeConsistency (initDomains pW)) x y) ∧
      (∀ v, enforceNodeConsistency (initDomains pW) v = [] →
        enforceNodeConsistency (initDomains pW) v = [])) :=
  ⟨pW_wellFormed, rfl,
    claim_C4 pW (enforceNodeConsistency (initDomains pW))
      (enforceNodeConsistency (initDomains pW)) pW_wellFormed rfl⟩

/-- C4 counterexample: on `pI` (an isolated slot emptied by node
consistency), `ac3` terminates with an empty worklist and returns `true`,
yet the slot's domain is empty — refuting "no slot's domain is empty". -/
theorem claim_C4_counterexample :
    ac3 pI (enforceNodeConsistency (initDomains pI)) none =
      some (enforceNodeConsistency (initDomains pI), true) ∧
    vI ∈ pI.vars ∧
    enforceNodeConsistency (initDomains pI) vI = [] :=
  ⟨rfl, by decide, by decide⟩

/-- C5, amended: unconditional idempotence is false — after a run of
`ac3` that returns `false`, a second run can prune further (see
`claim_C5_counterexample`).  What does hold: when a run of `ac3` (with the
default full queue) returns `true` on a store satisfying the domain
length invariant, a second run makes no further domain changes and still
returns `true`. -/
theorem claim_C5 (p : Puzzle) (d d1 : Dom) (hp : p.wellFormed) (hlen : lenInv p d)
    (h : ac3 p d none = some (d1, true)) : ac3 p d1 none = some (d1, true) := by
  obtain ⟨_, _, _, hov, hsym⟩ := hp
  exact ac3_idem hov hsym hlen h

theorem claim_C5_witness :
    pW.wellFormed ∧ lenInv pW (enforceNodeConsistency (initDomains pW)) ∧
    ac3 pW (enforceNodeConsistency (initDomains pW)) none =
      some (enforceNodeConsistency (initDomains pW), true) ∧
    ac3 pW (enforceNodeConsistency (initDomains pW)) none =
      some (enforceNodeConsistency (initDomains pW), true) :=
  ⟨pW_wellFormed, enforceNodeConsistency_lenInv pW (initDomains pW), rfl,
    claim_C5 pW (enforceNodeConsistency (initDomains pW))
      (enforceNodeConsistency (initDomains pW)) pW_wellFormed
      (enforceNodeConsistency_lenInv pW (initDomains pW)) rfl⟩

/-- C5 counterexample: on `pCE` the first `ac3` run fails (returns
`false`) leaving slot `bV` with domain `["XB"]`; running `ac3` again on
the resulting store empties `bV`'s domain — the second call does change
the Domain Store, refuting unconditional idempotence. -/
theorem claim_C5_counterexample :
    Option.map (fun r => ((ac3 pCE r.1 none).map (fun r2 => r2.1 bV), r.1 bV))
      (ac3 pCE (enforceNodeConsistency (initDomains pCE)) none) =
      some (some [], [['X', 'B']]) := by decide

/-- C6: monotonic shrinkage — whatever arc list it is started from, `ac3`
never adds a word to any slot's domain: every domain of the resulting
store is a subset of the corresponding domain of the store it was given;
in particular, after the `solve` pipeline's call, every domain is a subset
of its value immediately after node consistency. -/
theorem claim_C6 (p : Puzzle) (arcs : Option (List (Var × Var))) (d d1 : Dom) (b : Bool)
    (h : ac3 p d arcs = some (d1, b)) : ∀ v, d1 v ⊆ d v :=
  fun v => (ac3_sublist h v).subset

theorem claim_C6_witness :
    ac3 pCE (enforceNodeConsistency (initDomains pCE)) none =
      some ((fun v => if v = aV then [] else enforceNodeConsistency (initDomains pCE) v),
        false) ∧
    ∀ v, (fun v => if v = aV then [] else enforceNodeConsistency (initDomains pCE) v) v ⊆
      enforceNodeConsistency (initDomains pCE) v :=
  ⟨rfl, claim_C6 pCE none (enforceNodeConsistency (initDomains pCE))
    (fun v => if v = aV then [] else enforceNodeConsistency (initDomains pCE) v) false rfl⟩

/-- C7: `revise(x, y)` keeps in `x`'s domain exactly the words that have a
matching candidate in `y`'s current domain at the recorded overlap index
pair, leaves every other domain (in particular `y`'s) untouched, and
returns `true` iff at least one word was removed; with no overlap it
removes nothing and returns `false`.  Stated for distinct variables with
length-invariant domains, as in every call the solver makes. -/
theorem claim_C7 (p : Puzzle) (d : Dom) (x y : Var) (hyx : y ≠ x)
    (hp : p.wellFormed)
    (hlx : ∀ w ∈ d x, (w : Word).length = x.length)
    (hly : ∀ w ∈ d y, (w : Word).length = y.length) :
    (∀ i j, p.overlaps x y = some (i, j) →
      ∃ d1 rev, revise p d x y = some (d1, rev) ∧
        d1 y = d y ∧ (∀ v, v ≠ x → d1 v = d v) ∧
        (∀ wx, wx ∈ d1 x ↔ wx ∈ d x ∧ ∃ wy ∈ d y, wx[i]? = wy[j]?) ∧
        (rev = true ↔ ∃ wx ∈ d x, wx ∉ d1 x)) ∧
    (p.overlaps x y = none → revise p d x y = some (d, false)) := by
  obtain ⟨_, _, _, hov, _⟩ := hp
  constructor
  · intro i j ho
    obtain ⟨hi, hj⟩ := hov x y i j ho
    have hbx : ∀ w ∈ d x, i < w.length := by
      intro w hw; rw [hlx w hw]; exact hi
    have hby : ∀ w ∈ d y, j < w.length := by
      intro w hw; rw [hly w hw]; exact hj
    refine ⟨_, _, revise_eq ho hbx hby, ?_, ?_, ?_, ?_⟩
    · simp [hyx]
    · intro v hv
      simp [hv]
    · intro wx
      simp [List.mem_filter, hasSupport_iff]
    · constructor
      · intro hrev
        have hall : (d x).all (hasSupport i j (d y)) = false := by
          cases hv : (d x).all (hasSupport i j (d y))
          · rfl
          · rw [hv] at hrev
            cases hrev
        obtain ⟨wx, hwx, hns⟩ := List.all_eq_false.mp hall
        refine ⟨wx, hwx, ?_⟩
        intro hmem
        simp only [if_pos rfl] at hmem
        exact hns (List.mem_filter.mp hmem).2
      · rintro ⟨wx, hwx, hnmem⟩
        have hsupp : hasSupport i j (d y) wx = false := by
          cases hs : hasSupport i j (d y) wx
          · rfl
          · refine absurd ?_ hnmem
            have hmem2 : wx ∈ (d x).filter (hasSupport i j (d y)) :=
              List.mem_filter.mpr ⟨hwx, hs⟩
            simpa using hmem2
        have hall : (d x).all (hasSupport i j (d y)) = false :=
          List.all_eq_false.mpr ⟨wx, hwx, by rw [hsupp]; exact Bool.false_ne_true⟩
        rw [hall]
        rfl
  · intro ho
    rw [revise, ho]

theorem claim_C7_witness :
    v9 ≠ u9 ∧ p9.wellFormed ∧
    (∀ w ∈ enforceNodeConsistency (initDomains p9) u9, (w : Word).length = u9.length) ∧
    (∀ w ∈ enforceNodeConsistency (initDomains p9) v9, (w : Word).length = v9.length) ∧
    ((∀ i j, p9.overlaps u9 v9 = some (i, j) →
      ∃ d1 rev, revise p9 (enforceNodeConsistency (initDomains p9)) u9 v9 = some (d1, rev) ∧
        d1 v9 = enforceNodeConsistency (initDomains p9) v9 ∧
        (∀ v, v ≠ u9 → d1 v = enforceNodeConsistency (initDomains p9) v) ∧
        (∀ wx, wx ∈ d1 u9 ↔ wx ∈ enforceNodeConsistency (initDomains p9) u9 ∧
          ∃ wy ∈ enforceNodeConsistency (initDomains p9) v9, wx[i]? = wy[j]?) ∧
        (rev = true ↔ ∃ wx ∈ enforceNodeConsistency (initDomains p9) u9, wx ∉ d1 u9)) ∧
      (p9.overlaps u9 v9 = none →
        revise p9 (enforceNodeConsistency (initDomains p9)) u9 v9 =
          some (enforceNodeConsistency (initDomains p9), false))) :=
  ⟨by decide, p9_wellFormed,
    enforceNodeConsistency_lenInv p9 (initDomains p9) u9 (by decide),
    enforceNodeConsistency_lenInv p9 (initDomains p9) v9 (by decide),
    claim_C7 p9 (enforceNodeConsistency (initDomains p9)) u9 v9 (by decide) p9_wellFormed
      (enforceNodeConsistency_lenInv p9 (initDomains p9) u9 (by decide))
      (enforceNodeConsistency_lenInv p9 (initDomains p9) v9 (by decide))⟩

/-- C8: node consistency is exact — after initialization and
`enforce_node_consistency`, every slot variable's domain is exactly the
subset of the full word list whose words have the slot's length, and
nothing else in the store is affected (the store is fully described by
this equation). -/
theorem claim_C8 (p : Puzzle) (v : Var) (w : Word) :
    w ∈ enforceNodeConsistency (initDomains p) v ↔ w ∈ p.words ∧ w.length = v.length := by
  rw [enforceNodeConsistency, initDomains]
  rw [List.mem_filter]
  constructor
  · rintro ⟨h1, h2⟩
    exact ⟨h1, beq_iff_eq.mp h2⟩
  · rintro ⟨h1, h2⟩
    exact ⟨h1, beq_iff_eq.mpr h2⟩

/-- C9: failure atomicity of the search — whenever a `backtrack` call
returns `None` (search failure), the threaded assignment dictionary is
restored to exactly its state at entry: every tentative entry added
during the call has been removed by the `del` discipline. -/
theorem claim_C9 (p : Puzzle) (d : Dom) (fuel : Nat) (a s : Assn)
    (h : backtrackF p d fuel a = some (none, s)) : s = a :=
  backtrackF_restores h rfl

theorem claim_C9_witness :
    backtrackF p9 (enforceNodeConsistency (initDomains p9)) 3 a9 = some (none, a9) ∧
    a9 = a9 :=
  ⟨by decide, claim_C9 p9 (enforceNodeConsistency (initDomains p9)) 3 a9 a9 (by decide)⟩

/-- C10: `order_domain_values` is a deterministic function of the domains,
the assignment and the overlap table: its result is unchanged when every
domain is replaced by any permutation of itself (the set iteration order
of the underlying containers is irrelevant); the result is a permutation
of the slot's current domain; and it is the stable sort of the scored
domain by ascending `(elimination count, word)` — ties in the count are
broken by lexicographic word order, as Python's `sorted` compares
`(int, str)` pairs. -/
theorem claim_C10 (p : Puzzle) (d d2 : Dom) (var : Var) (a : Assn) (out : List Word)
    (hperm : ∀ v, List.Perm (d v) (d2 v))
    (h : orderDomainValues p d var a = some out) :
    orderDomainValues p d2 var a = some out ∧
    List.Perm out (d var) ∧
    (∃ scores, buildScores p d a var (d var) = some scores ∧
      out = (List.insertionSort scoreLe scores).map Prod.snd ∧
      List.Sorted scoreLe (List.insertionSort scoreLe scores)) := by
  refine ⟨orderDomainValues_congr hperm h, orderDomainValues_perm h, ?_⟩
  rw [orderDomainValues] at h
  cases hb : buildScores p d a var (d var) with
  | none => rw [hb] at h; simp at h
  | some s =>
    rw [hb] at h
    simp at h
    exact ⟨s, rfl, h.symm, List.sorted_insertionSort scoreLe s⟩

theorem claim_C10_witness :
    (∀ v, List.Perm (enforceNodeConsistency (initDomains pCE) v)
      (enforceNodeConsistency (initDomains pCE) v)) ∧
    orderDomainValues pCE (enforceNodeConsistency (initDomains pCE)) aV [] =
      some [['A']] ∧
    (orderDomainValues pCE (enforceNodeConsistency (initDomains pCE)) aV [] =
      some [['A']] ∧
    List.Perm [['A']] (enforceNodeConsistency (initDomains pCE) aV) ∧
    (∃ scores, buildScores pCE (enforceNodeConsistency (initDomains pCE)) [] aV
        (enforceNodeConsistency (initDomains pCE) aV) = some scores ∧
      [['A']] = (List.insertionSort scoreLe scores).map Prod.snd ∧
      List.Sorted scoreLe (List.insertionSort scoreLe scores))) :=
  ⟨fun v => List.Perm.refl _, by decide,
    claim_C10 pCE (enforceNodeConsistency (initDomains pCE))
      (enforceNodeConsistency (initDomains pCE)) aV [] [['A']]
      (fun v => List.Perm.refl _) (by decide)⟩
